import Mathlib

set_option maxHeartbeats 1000000

namespace Sdag

/-- Model of an `f64` value: exact rationals extended with NaN and the two
signed infinities (`inf true` is `+∞`, `inf false` is `-∞`).  The special
values follow IEEE-754 propagation and comparison rules; finite arithmetic
is modelled as exact rational arithmetic. -/
inductive F : Type
  | nan : F
  | inf : Bool → F
  | num : ℚ → F
deriving DecidableEq

namespace F

/-- Rust `f64` equality `==`: NaN compares unequal to everything,
including itself. -/
def beq : F → F → Bool
  | nan, _ => false
  | _, nan => false
  | inf s, inf t => s == t
  | num a, num b => a == b
  | _, _ => false

/-- Rust `f64` inequality `!=`. -/
def fne (a b : F) : Bool := !(beq a b)

/-- Rust `f64` `<`: false whenever NaN is involved. -/
def flt : F → F → Bool
  | nan, _ => false
  | _, nan => false
  | inf s, inf t => !s && t
  | inf s, num _ => !s
  | num _, inf t => t
  | num a, num b => a < b

/-- Rust `f64` `>`. -/
def fgt (a b : F) : Bool := flt b a

/-- IEEE-754 addition on the model. -/
def add : F → F → F
  | nan, _ => nan
  | _, nan => nan
  | inf s, inf t => if s == t then inf s else nan
  | inf s, num _ => inf s
  | num _, inf t => inf t
  | num a, num b => num (a + b)

/-- IEEE-754 subtraction on the model. -/
def sub : F → F → F
  | nan, _ => nan
  | _, nan => nan
  | inf s, inf t => if s == t then nan else inf s
  | inf s, num _ => inf s
  | num _, inf t => inf (!t)
  | num a, num b => num (a - b)

/-- IEEE-754 multiplication on the model (`0 * ∞ = NaN`). -/
def mul : F → F → F
  | nan, _ => nan
  | _, nan => nan
  | inf s, inf t => inf (s == t)
  | inf s, num q => if q == 0 then nan else inf (s == decide (0 < q))
  | num q, inf t => if q == 0 then nan else inf (t == decide (0 < q))
  | num a, num b => num (a * b)

/-- IEEE-754 division on the model (only the finite/finite and
special-propagation cases are exercised by the claims). -/
def fdiv : F → F → F
  | nan, _ => nan
  | _, nan => nan
  | inf _, inf _ => nan
  | inf s, num q => if q == 0 then inf s else inf (s == decide (0 < q))
  | num _, inf _ => num 0
  | num a, num b =>
      if b == 0 then (if a == 0 then nan else inf (decide (0 ≤ a)))
      else num (a / b)

/-- IEEE-754 absolute value on the model. -/
def fabs : F → F
  | nan => nan
  | inf _ => inf true
  | num a => num (if a < 0 then -a else a)

/-- The constant `f64::EPSILON`, equal to `2⁻⁵²`. -/
def epsF : F := num ((1 : ℚ) / 2 ^ 52)

/-- The change-detection test used throughout `Engine::evaluate_step`:
`(new_val - old_val).abs() > f64::EPSILON`. -/
def bigChange (newV oldV : F) : Bool := fgt (fabs (sub newV oldV)) epsF

end F

/-- The `ComparisonOp` enum from `nodes.rs`. -/
inductive ComparisonOp : Type
  | greaterThan
  | lessThan
  | equal
deriving DecidableEq

/-- The `NodeOp` enum, exactly the variants and fields matched by
`Engine::evaluate_step` and `Engine::compute_node` in `engine.rs`. -/
inductive NodeOp : Type
  | constant : F → NodeOp
  | input : Nat → NodeOp
  | add : Nat → Nat → NodeOp
  | multiply : Nat → Nat → NodeOp
  | sum : List Nat → NodeOp
  | constantProduct : Nat → F → NodeOp
  | comparison : Nat → Nat → ComparisonOp → NodeOp
deriving DecidableEq

/-- The node indices a node reads during recomputation (its declared
inputs); `Input` and `Constant` read no other node. -/
def declaredInputs : NodeOp → List Nat
  | .constant _ => []
  | .input _ => []
  | .add a b => [a, b]
  | .multiply a b => [a, b]
  | .sum inputs => inputs
  | .constantProduct i _ => [i]
  | .comparison a b _ => [a, b]

/-- Translation of `Engine::check_inputs_changed` from `engine.rs`. -/
def checkInputsChanged (changed : List Bool) : NodeOp → Bool
  | .add a b => changed.getD a false || changed.getD b false
  | .multiply a b => changed.getD a false || changed.getD b false
  | .sum inputs => inputs.any (fun i => changed.getD i false)
  | .constantProduct i _ => changed.getD i false
  | .comparison a b _ => changed.getD a false || changed.getD b false
  | _ => false

/-- The value computed for one node by `Engine::compute_node`
(`values` is the dense value array, the second argument the node's own
index, used only by `Input` which rereads its already-set slot). -/
def computeVal (values : List F) : NodeOp → Nat → F
  | .constant v, _ => v
  | .input _, i => values.getD i (F.num 0)
  | .add a b, _ => F.add (values.getD a (F.num 0)) (values.getD b (F.num 0))
  | .multiply a b, _ => F.mul (values.getD a (F.num 0)) (values.getD b (F.num 0))
  | .sum inputs, _ =>
      (inputs.map (fun j => values.getD j (F.num 0))).foldl F.add (F.num 0)
  | .constantProduct i factor, _ => F.mul (values.getD i (F.num 0)) factor
  | .comparison a b op, _ =>
      let va := values.getD a (F.num 0)
      let vb := values.getD b (F.num 0)
      match op with
      | .greaterThan => if F.fgt va vb then F.num 1 else F.num 0
      | .lessThan => if F.flt va vb then F.num 1 else F.num 0
      | .equal => if F.flt (F.fabs (F.sub va vb)) F.epsF then F.num 1 else F.num 0

/-- The `input_nodes` list computed by `Engine::new`: pairs
`(node_id, input_index)` for every `Input` node, in index order. -/
def collectInputs : List NodeOp → Nat → List (Nat × Nat)
  | [], _ => []
  | .input idx :: rest, i => (i, idx) :: collectInputs rest (i + 1)
  | _ :: rest, i => collectInputs rest (i + 1)

/-- First-run input refresh: `self.values[node_id] = input_values[input_idx]`
for every input node; a row access out of bounds is a panic, modelled as
`none`. -/
def setInputsFirst (row : List F) : List (Nat × Nat) → List F → Option (List F)
  | [], v => some v
  | (nid, idx) :: rest, v =>
    match row.get? idx with
    | none => none
    | some newVal => setInputsFirst row rest (v.set nid newVal)

/-- Incremental input refresh from `Engine::evaluate_step`: the new row value
is compared against `prev_values[node_id]` with the epsilon test, and value
and changed flag are updated only when the test passes. -/
def updInputs (row : List F) (prev : List F) :
    List (Nat × Nat) → List F × List Bool → Option (List F × List Bool)
  | [], vc => some vc
  | (nid, idx) :: rest, (v, c) =>
    match row.get? idx with
    | none => none
    | some newVal =>
      if F.bigChange newVal (prev.getD nid (F.num 0))
      then updInputs row prev rest (v.set nid newVal, c.set nid true)
      else updInputs row prev rest (v, c)

/-- The first-run evaluation loop: every non-`Input` node is computed in
index order. -/
def evalLoopFirst : List NodeOp → Nat → List F → List F
  | [], _, v => v
  | nd :: rest, i, v =>
    match nd with
    | .input _ => evalLoopFirst rest (i + 1) v
    | _ => evalLoopFirst rest (i + 1) (v.set i (computeVal v nd i))

/-- One turn of the incremental evaluation loop of `Engine::evaluate_step`
for the node `nd` at index `i`. -/
def incTurn (prev : List F) (i : Nat) (nd : NodeOp) :
    List F × List Bool → List F × List Bool
  | (v, c) =>
    match nd with
    | .input _ => (v, c)
    | .constant _ => (v, c)
    | _ =>
      if checkInputsChanged c nd then
        let newVal := computeVal v nd i
        (v.set i newVal,
         if F.bigChange newVal (prev.getD i (F.num 0)) then c.set i true else c)
      else (v, c)

/-- The incremental evaluation loop (`for i in 0..n` in
`Engine::evaluate_step`, non-first-run branch). -/
def evalLoopInc (prev : List F) : List NodeOp → Nat → List F × List Bool → List F × List Bool
  | [], _, vc => vc
  | nd :: rest, i, vc => evalLoopInc prev rest (i + 1) (incTurn prev i nd vc)

/-- The `Engine` struct of `engine.rs`: static graph structure plus the
trigger and output configuration (`set_trigger` / `set_outputs`). -/
structure Engine : Type where
  nodes : List NodeOp
  triggerNode : Option Nat
  outputNodes : List Nat
deriving DecidableEq

/-- The mutable evaluator state of `Engine`: the three parallel dense
arrays and the first-run flag. -/
structure EngState : Type where
  values : List F
  prevValues : List F
  changed : List Bool
  firstRun : Bool
deriving DecidableEq

/-- The state produced by `Engine::new`: zeroed arrays, `first_run = true`. -/
def initState (e : Engine) : EngState :=
  ⟨List.replicate e.nodes.length (F.num 0),
   List.replicate e.nodes.length (F.num 0),
   List.replicate e.nodes.length false, true⟩

/-- End of `Engine::evaluate_step`: copy `values` into `prev_values`,
clear `first_run`, and consult the trigger's changed flag for emission. -/
def finishStep (e : Engine) (v2 : List F) (c2 : List Bool) :
    EngState × Option (List F) :=
  (⟨v2, v2, c2, false⟩,
   match e.triggerNode with
   | none => none
   | some t =>
     if c2.getD t false then
       some (e.outputNodes.map (fun id => v2.getD id (F.num 0)))
     else none)

/-- Translation of `Engine::evaluate_step` from `engine.rs`.  The result is `none` when the
Rust code would panic (a row access out of bounds); otherwise it is the new
state together with `Some(outputs)` when the trigger fired and `None`
otherwise. -/
def evaluateStep (e : Engine) (s : EngState) (row : List F) :
    Option (EngState × Option (List F)) :=
  if s.firstRun then
    (setInputsFirst row (collectInputs e.nodes 0) s.values).map (fun v1 =>
      finishStep e (evalLoopFirst e.nodes 0 v1)
        (List.replicate e.nodes.length true))
  else
    (updInputs row s.prevValues (collectInputs e.nodes 0)
        (s.prevValues, List.replicate e.nodes.length false)).map (fun vc =>
      finishStep e (evalLoopInc s.prevValues e.nodes 0 vc).1
        (evalLoopInc s.prevValues e.nodes 0 vc).2)

/-- Run the engine over a stream of rows, collecting after each step the
resulting state and the emission decision. -/
def runTrace (e : Engine) : EngState → List (List F) →
    Option (List (EngState × Option (List F)))
  | _, [] => some []
  | s, row :: rest =>
    match evaluateStep e s row with
    | none => none
    | some (s', em) =>
      match runTrace e s' rest with
      | none => none
      | some tr => some ((s', em) :: tr)

/-- The value of node `nodeIdx` after step `stepIdx` (0-based) of a run
from the initial state. -/
def traceValueAt (e : Engine) (rows : List (List F)) (stepIdx nodeIdx : Nat) :
    Option F :=
  (runTrace e (initState e) rows).bind (fun tr =>
    (tr.get? stepIdx).map (fun p => p.1.values.getD nodeIdx (F.num 0)))

/-- The changed flag of node `nodeIdx` after step `stepIdx` of a run from
the initial state. -/
def traceChangedAt (e : Engine) (rows : List (List F)) (stepIdx nodeIdx : Nat) :
    Option Bool :=
  (runTrace e (initState e) rows).bind (fun tr =>
    (tr.get? stepIdx).map (fun p => p.1.changed.getD nodeIdx false))

/-- The emission decisions of a run from the initial state. -/
def traceEmissions (e : Engine) (rows : List (List F)) :
    Option (List (Option (List F))) :=
  (runTrace e (initState e) rows).map (List.map Prod.snd)

/-! ### The Sampler evaluator of `lib.rs`

`Sampler::run` re-evaluates every node for each row and gates emission on
`prev_trigger.map_or(true, |p| p != trigger_val)`, updating `prev_trigger`
only on emission. -/

/-- A row as presented to the Sampler: a map from channel name to value
(`HashMap<String, f64>`, modelled as an association list with unique keys;
`unwrap_or(&0.0)` supplies the default). -/
def SRow : Type := List (String × F)

/-- The node shapes built by `Sampler::run` from the arena tags
(`InputNode`, `ConstNode`, `AddNode`, `MulNode`, `DivNode` in `lib.rs`). -/
inductive SNode : Type
  | inputN : String → SNode
  | constN : F → SNode
  | addN : List Nat → SNode
  | mulN : List Nat → SNode
  | divN : Nat → Nat → SNode
deriving DecidableEq

/-- Translation of `DivNode::eval` from `lib.rs`: NaN when `r == 0.0`, else `l / r`. -/
def divNodeEval (left right : Nat) (values : List F) : F :=
  let l := values.getD left (F.num 0)
  let r := values.getD right (F.num 0)
  if F.beq r (F.num 0) then F.nan else F.fdiv l r

/-- The `eval_arena` method for each node kind (`lib.rs`): inputs read the row with
default `0.0`, `AddNode` sums its children, `MulNode` multiplies them. -/
def SNode.evalArena (values : List F) (row : SRow) : SNode → F
  | .inputN name => ((row.lookup name).getD (F.num 0))
  | .constN v => v
  | .addN children =>
      (children.map (fun id => values.getD id (F.num 0))).foldl F.add (F.num 0)
  | .mulN children =>
      (children.map (fun id => values.getD id (F.num 0))).foldl F.mul (F.num 1)
  | .divN left right => divNodeEval left right values

/-- The per-row full evaluation loop of `Sampler::run`:
`for i in 0..n { values[i] = nodes[i].eval_arena(&values, &row) }`. -/
def sEvalLoop (row : SRow) : List SNode → Nat → List F → List F
  | [], _, v => v
  | nd :: rest, i, v => sEvalLoop row rest (i + 1) (v.set i (nd.evalArena v row))

/-- Evaluate all nodes of a Sampler arena on one row, starting from a
zeroed value vector. -/
def evalAllNodes (nodes : List SNode) (row : SRow) : List F :=
  sEvalLoop row nodes 0 (List.replicate nodes.length (F.num 0))

/-- Build the `output{k}` entries of an emitted record, in declared output
order with positional index `k`. -/
def mkOutputs (values : List F) : List Nat → Nat → List (String × F)
  | [], _ => []
  | oid :: rest, k =>
      ("output" ++ toString k, values.getD oid (F.num 0)) :: mkOutputs values rest (k + 1)

/-- One emitted record: the trigger value under key `"trigger"` plus the
output values. -/
def mkRecord (t : F) (outputs : List Nat) (values : List F) : List (String × F) :=
  ("trigger", t) :: mkOutputs values outputs 0

/-- The row loop of `Sampler::run`, carrying `prev_trigger`. -/
def samplerRunAux (nodes : List SNode) (root : Nat) (outputs : List Nat) :
    Option F → List SRow → List (List (String × F))
  | _, [] => []
  | prevTrigger, row :: rest =>
    let values := evalAllNodes nodes row
    let t := values.getD root (F.num 0)
    match prevTrigger with
    | none => mkRecord t outputs values :: samplerRunAux nodes root outputs (some t) rest
    | some p =>
      if F.fne p t then
        mkRecord t outputs values :: samplerRunAux nodes root outputs (some t) rest
      else
        samplerRunAux nodes root outputs (some p) rest

/-- Translation of `Sampler::run` from `lib.rs`: the arena's `root` is the trigger node. -/
def samplerRun (nodes : List SNode) (root : Nat) (outputs : List Nat)
    (rows : List SRow) : List (List (String × F)) :=
  samplerRunAux nodes root outputs none rows

/-- The sequence of emitted trigger values of a Sampler run. -/
def emittedTriggers (recs : List (List (String × F))) : List F :=
  recs.filterMap (fun r => r.lookup "trigger")

/-! ### The Arena of `arena.rs` -/

/-- The `Arena<T>` struct from `arena.rs`: the node vector plus the `shared_refs`
map from original (external) id to `NodeId`. -/
structure ArenaS (T : Type) : Type where
  nodes : List T
  sharedRefs : List (String × Nat)

/-- Translation of `Arena::insert` from `arena.rs`: with an original id, a previously seen
id aliases to the existing `NodeId`; otherwise the node is appended and the
id recorded.  Without an id the node is always appended. -/
def ArenaS.insert {T : Type} (a : ArenaS T) (node : T) (originalId : Option String) :
    ArenaS T × Nat :=
  match originalId with
  | some id =>
    match a.sharedRefs.lookup id with
    | some existingId => (a, existingId)
    | none => (⟨a.nodes ++ [node], (id, a.nodes.length) :: a.sharedRefs⟩, a.nodes.length)
  | none => (⟨a.nodes ++ [node], a.sharedRefs⟩, a.nodes.length)

/-! ### `from_yaml` of `engine.rs`

The YAML text parsing and per-kind parameter extraction are pre-applied:
a `YSpec` holds the fields `from_yaml` reads out of each node's params.
The structural behaviour of `from_yaml` — building `id_map` over all
declared nodes, resolving references through it with `NodeNotFound`
errors, and performing no topological-order verification (the code's
`// TODO: Verify topological order`) — is modelled faithfully. -/

/-- One parsed YAML node spec, as consumed by `from_yaml`. -/
inductive YSpec : Type
  | constant : F → YSpec
  | input : Nat → YSpec
  | add : String → String → YSpec
  | multiply : String → String → YSpec
  | comparison : String → String → ComparisonOp → YSpec
  | other : String → YSpec
deriving DecidableEq

/-- A declared YAML node: external string id plus its spec. -/
structure YNode : Type where
  id : String
  spec : YSpec
deriving DecidableEq

/-- The parsed `DagYaml` document. -/
structure DagYaml : Type where
  nodes : List YNode
  trigger : Option String
  outputs : Option (List String)
deriving DecidableEq

/-- The `id_map` of `from_yaml`: every declared id mapped to its position
(a later duplicate id overwrites an earlier one, as `HashMap::insert` does). -/
def idMapOf : List YNode → Nat → List (String × Nat)
  | [], _ => []
  | nd :: rest, i => (nd.id, i) :: idMapOf rest (i + 1)

/-- Lookup in the id map with `HashMap` overwrite semantics: the last
declared index for a duplicated id wins. -/
def idLookup (m : List (String × Nat)) (key : String) : Option Nat :=
  m.reverse.lookup key

/-- Resolve one spec to a `NodeOp`, with the `DagError::NodeNotFound` and
unknown-type errors of `from_yaml` (errors modelled as strings). -/
def resolveNode (m : List (String × Nat)) : YSpec → Except String NodeOp
  | .constant v => .ok (.constant v)
  | .input k => .ok (.input k)
  | .add a b =>
    match idLookup m a with
    | none => .error ("NodeNotFound: " ++ a)
    | some x =>
      match idLookup m b with
      | none => .error ("NodeNotFound: " ++ b)
      | some y => .ok (.add x y)
  | .multiply a b =>
    match idLookup m a with
    | none => .error ("NodeNotFound: " ++ a)
    | some x =>
      match idLookup m b with
      | none => .error ("NodeNotFound: " ++ b)
      | some y => .ok (.multiply x y)
  | .comparison a b op =>
    match idLookup m a with
    | none => .error ("NodeNotFound: " ++ a)
    | some x =>
      match idLookup m b with
      | none => .error ("NodeNotFound: " ++ b)
      | some y => .ok (.comparison x y op)
  | .other ty => .error ("Unknown node type: " ++ ty)

/-- Resolve all declared nodes in order, stopping at the first error. -/
def resolveNodes (m : List (String × Nat)) : List YNode → Except String (List NodeOp)
  | [] => .ok []
  | nd :: rest =>
    match resolveNode m nd.spec with
    | .error e => .error e
    | .ok op =>
      match resolveNodes m rest with
      | .error e => .error e
      | .ok ops => .ok (op :: ops)

/-- Resolve the declared output ids. -/
def resolveOutputs (m : List (String × Nat)) : List String → Except String (List Nat)
  | [] => .ok []
  | id :: rest =>
    match idLookup m id with
    | none => .error ("NodeNotFound: " ++ id)
    | some i =>
      match resolveOutputs m rest with
      | .error e => .error e
      | .ok is => .ok (i :: is)

/-- Translation of `from_yaml` from `engine.rs` (after parsing): builds the id map over
all declared nodes, converts every node, and resolves the optional trigger
and outputs.  No topological-order check is performed. -/
def fromYaml (d : DagYaml) : Except String Engine :=
  let m := idMapOf d.nodes 0
  match resolveNodes m d.nodes with
  | .error e => .error e
  | .ok ops =>
    match d.trigger with
    | some tid =>
      match idLookup m tid with
      | none => .error ("NodeNotFound: " ++ tid)
      | some t =>
        match d.outputs with
        | none => .ok ⟨ops, some t, []⟩
        | some oids =>
          match resolveOutputs m oids with
          | .error e => .error e
          | .ok os => .ok ⟨ops, some t, os⟩
    | none =>
      match d.outputs with
      | none => .ok ⟨ops, none, []⟩
      | some oids =>
        match resolveOutputs m oids with
        | .error e => .error e
        | .ok os => .ok ⟨ops, none, os⟩

/-- The node references, trigger and output indices of an engine all lie
within the arena: every node-index dereference into the dense arrays is in
bounds. -/
def Engine.refsInBounds (e : Engine) : Prop :=
  (∀ i nd, e.nodes.get? i = some nd → ∀ j ∈ declaredInputs nd, j < e.nodes.length) ∧
  (∀ t, e.triggerNode = some t → t < e.nodes.length) ∧
  (∀ o ∈ e.outputNodes, o < e.nodes.length)

/-! ### Concrete instances used to settle the claims -/

/-- An input node feeding a `ConstantProduct` with factor `2⁻⁶⁰`; the
product node is the trigger and sole output. -/
def c1eng : Engine :=
  ⟨[.input 0, .constantProduct 0 (F.num ((1 : ℚ) / 2 ^ 60))], some 1, [1]⟩

/-- Rows driving `c1eng`: the trigger drifts upward by exactly
`f64::EPSILON` per step (never flagged) and then jumps back to `0`. -/
def c1rows : List (List F) := [[F.num 0], [F.num 256], [F.num 512], [F.num 0]]

/-- A single input node, trigger and output. -/
def c2eng : Engine := ⟨[.input 0], some 0, [0]⟩

/-- Rows driving `c2eng`: the second row differs from the first by the
nonzero amount `2⁻⁵³`, which is below `f64::EPSILON`. -/
def c2rows : List (List F) := [[F.num 0], [F.num ((1 : ℚ) / 2 ^ 53)]]

/-- An input node feeding a `ConstantProduct` with factor `2⁻⁶⁰`. -/
def c3eng : Engine :=
  ⟨[.input 0, .constantProduct 0 (F.num ((1 : ℚ) / 2 ^ 60))], none, []⟩

/-- Rows driving `c3eng`: the product node recomputes to `2⁻⁵²`, within
epsilon of its prior value `0`. -/
def c3rows : List (List F) := [[F.num 0], [F.num 256]]

/-- Two input nodes feeding an `Add` node. -/
def c4eng : Engine := ⟨[.input 0, .input 1, .add 0 1], none, []⟩

/-- Rows driving `c4eng`: the second row sets the inputs to `+∞` and `-∞`,
so the `Add` node recomputes to NaN from a non-NaN prior. -/
def c4rows : List (List F) := [[F.num 0, F.num 0], [F.inf true, F.inf false]]

/-- A YAML document with one input node bound to row position `0`. -/
def c5yaml : DagYaml := ⟨[⟨"x", .input 0⟩], none, none⟩

/-- The engine `from_yaml` produces for `c5yaml`. -/
def c5eng : Engine := ⟨[.input 0], none, []⟩

/-- A YAML document whose only node is an `Add` referencing itself: a
one-node cycle (equally a forward reference). -/
def c6yaml : DagYaml := ⟨[⟨"n0", .add "n0" "n0"⟩], none, none⟩

/-- A YAML document whose first node references the later-declared second
node: a forward reference. -/
def c6fwdYaml : DagYaml :=
  ⟨[⟨"n0", .add "n1" "n1"⟩, ⟨"n1", .constant (F.num 1)⟩], none, none⟩

/-- Inserting an `Add` summing children `0` and `1` under original id
`"x"` into an empty arena. -/
def c7step1 : ArenaS SNode × Nat := (⟨[], []⟩ : ArenaS SNode).insert (.addN [0, 1]) (some "x")

/-- Inserting a structurally identical `Add` (same kind, same children)
under the distinct original id `"y"`. -/
def c7step2 : ArenaS SNode × Nat := c7step1.1.insert (.addN [0, 1]) (some "y")

/-- An arena whose `shared_refs` already maps `"x"` to node `0`. -/
def c7arena : ArenaS SNode := ⟨[.addN [0, 1]], [("x", 0)]⟩

/-- The Sampler arena for `a / b`: inputs `a`, `b` and a divide node,
which is the root (trigger) and the sole output. -/
def c8nodes : List SNode := [.inputN "a", .inputN "b", .divN 0 1]

/-- The two rows of the divide-by-zero run. -/
def c8rows : List SRow := [[("a", F.num 1), ("b", F.num 0)], [("a", F.num 1), ("b", F.num 1)]]

/-- A constant node next to an input node. -/
def c9eng : Engine := ⟨[.constant (F.num 7), .input 0], none, []⟩

/-- Two rows driving `c9eng` with a changing input. -/
def c9rows : List (List F) := [[F.num 1], [F.num 2]]

/-- An input, a constant, and an `Add` over both. -/
def c10eng : Engine := ⟨[.input 0, .constant (F.num 5), .add 0 1], none, []⟩

/-- The state of `c10eng` after a first step on row `[1]`. -/
def c10state : EngState :=
  ⟨[F.num 1, F.num 5, F.num 6], [F.num 1, F.num 5, F.num 6], [true, true, true], false⟩

/-- The state of `c10eng` after a second step on the identical row `[1]`:
nothing changed and nothing was recomputed. -/
def c10stateAfter : EngState :=
  ⟨[F.num 1, F.num 5, F.num 6], [F.num 1, F.num 5, F.num 6], [false, false, false], false⟩

/-- The state of `c2eng` after a first step on row `[0]`. -/
def c2state : EngState := ⟨[F.num 0], [F.num 0], [true], false⟩

/-- The state of `c2eng` after the sub-epsilon second row: value and flag
untouched. -/
def c2stateAfter : EngState := ⟨[F.num 0], [F.num 0], [false], false⟩

/-- The state of `c3eng` after a first step on row `[0]`. -/
def c3state : EngState := ⟨[F.num 0, F.num 0], [F.num 0, F.num 0], [true, true], false⟩

/-- The state of `c3eng` after the second row `[256]`: the product node
holds the sub-epsilon recomputed value `2⁻⁵²` yet is not flagged. -/
def c3stateAfter : EngState :=
  ⟨[F.num 256, F.num ((1 : ℚ) / 2 ^ 52)], [F.num 256, F.num ((1 : ℚ) / 2 ^ 52)],
   [true, false], false⟩

/-- The state of `c4eng` after a first step on row `[0, 0]`. -/
def c4state : EngState :=
  ⟨[F.num 0, F.num 0, F.num 0], [F.num 0, F.num 0, F.num 0], [true, true, true], false⟩

/-- The state of `c4eng` after the row `[+∞, -∞]`: the `Add` node holds
NaN but is not flagged. -/
def c4stateAfter : EngState :=
  ⟨[F.inf true, F.inf false, F.nan], [F.inf true, F.inf false, F.nan],
   [true, true, false], false⟩

/-- A Sampler arena used to witness the emission-protocol theorem. -/
def c1nodes : List SNode := [.inputN "a"]

/-- Rows driving `c1nodes`: a repeated value followed by a change. -/
def c1srows : List SRow := [[("a", F.num 1)], [("a", F.num 1)], [("a", F.num 2)]]

/-! ### Basic list lemmas -/

theorem getD_set_self {α : Type} (l : List α) (i : Nat) (a d : α) (h : i < l.length) :
    (l.set i a).getD i d = a := by
  induction l generalizing i with
  | nil => simp at h
  | cons x xs ih =>
    cases i with
    | zero => rfl
    | succ k => exact ih k (Nat.lt_of_succ_lt_succ h)

theorem getD_set_ne {α : Type} (l : List α) (i j : Nat) (a d : α) (h : i ≠ j) :
    (l.set i a).getD j d = l.getD j d := by
  induction l generalizing i j with
  | nil => rfl
  | cons x xs ih =>
    cases i with
    | zero =>
      cases j with
      | zero => exact absurd rfl h
      | succ m => rfl
    | succ k =>
      cases j with
      | zero => rfl
      | succ m => exact ih k m (fun hh => h (by rw [hh]))

theorem getD_replicate {α : Type} (n j : Nat) (a : α) :
    (List.replicate n a).getD j a = a := by
  induction n generalizing j with
  | zero => rfl
  | succ m ih =>
    cases j with
    | zero => rfl
    | succ k => exact ih k

theorem getD_set_true_mono (c : List Bool) (k j : Nat)
    (h : (c.set k true).getD j false = false) : c.getD j false = false := by
  by_cases hkj : k = j
  · subst hkj
    by_cases hk : k < c.length
    · rw [getD_set_self c k true false hk] at h
      exact absurd h (by simp)
    · rw [List.set_eq_of_length_le (Nat.le_of_not_lt hk)] at h
      exact h
  · rw [getD_set_ne c k j true false hkj] at h
    exact h

/-! ### Lemmas about the special-value arithmetic -/

theorem bigChange_nan_left (x : F) : F.bigChange F.nan x = false := by
  cases x <;> rfl

/-! ### Lemmas about one incremental turn -/

theorem incTurn_cases (prev : List F) (i : Nat) (nd : NodeOp) (vc : List F × List Bool) :
    incTurn prev i nd vc = vc ∨
    (∃ w, incTurn prev i nd vc = (vc.1.set i w, vc.2.set i true)) ∨
    (∃ w, incTurn prev i nd vc = (vc.1.set i w, vc.2)) := by
  obtain ⟨v, c⟩ := vc
  cases nd <;>
    first
    | exact Or.inl rfl
    | (simp only [incTurn]
       split
       · split
         · exact Or.inr (Or.inl ⟨_, rfl⟩)
         · exact Or.inr (Or.inr ⟨_, rfl⟩)
       · exact Or.inl rfl)

theorem incTurn_fst_length (prev : List F) (i : Nat) (nd : NodeOp) (vc : List F × List Bool) :
    (incTurn prev i nd vc).1.length = vc.1.length := by
  rcases incTurn_cases prev i nd vc with h | ⟨w, h⟩ | ⟨w, h⟩ <;>
    rw [h] <;> simp [List.length_set]

theorem incTurn_snd_length (prev : List F) (i : Nat) (nd : NodeOp) (vc : List F × List Bool) :
    (incTurn prev i nd vc).2.length = vc.2.length := by
  rcases incTurn_cases prev i nd vc with h | ⟨w, h⟩ | ⟨w, h⟩ <;>
    rw [h] <;> simp [List.length_set]

theorem incTurn_preserve_ne (prev : List F) (i : Nat) (nd : NodeOp)
    (vc : List F × List Bool) (j : Nat) (h : i ≠ j) :
    (incTurn prev i nd vc).1.getD j (F.num 0) = vc.1.getD j (F.num 0) ∧
    (incTurn prev i nd vc).2.getD j false = vc.2.getD j false := by
  rcases incTurn_cases prev i nd vc with hc | ⟨w, hc⟩ | ⟨w, hc⟩ <;> rw [hc]
  · exact ⟨rfl, rfl⟩
  · exact ⟨getD_set_ne _ i j _ _ h, getD_set_ne _ i j _ _ h⟩
  · exact ⟨getD_set_ne _ i j _ _ h, rfl⟩

theorem incTurn_changed_mono (prev : List F) (i : Nat) (nd : NodeOp)
    (vc : List F × List Bool) (j : Nat)
    (h : (incTurn prev i nd vc).2.getD j false = false) :
    vc.2.getD j false = false := by
  rcases incTurn_cases prev i nd vc with hc | ⟨w, hc⟩ | ⟨w, hc⟩ <;> rw [hc] at h
  · exact h
  · exact getD_set_true_mono _ _ _ h
  · exact h

theorem incTurn_eq_of_active (prev : List F) (i : Nat) (nd : NodeOp)
    (vc : List F × List Bool)
    (hni : ∀ x, nd ≠ NodeOp.input x) (hnc : ∀ x, nd ≠ NodeOp.constant x) :
    incTurn prev i nd vc =
      if checkInputsChanged vc.2 nd then
        (vc.1.set i (computeVal vc.1 nd i),
         if F.bigChange (computeVal vc.1 nd i) (prev.getD i (F.num 0)) then
           vc.2.set i true
         else vc.2)
      else vc := by
  obtain ⟨v, c⟩ := vc
  cases nd <;>
    first
    | exact absurd rfl (hni _)
    | exact absurd rfl (hnc _)
    | rfl

theorem incTurn_id_of_unchanged (prev : List F) (i : Nat) (nd : NodeOp)
    (vc : List F × List Bool) (h : checkInputsChanged vc.2 nd = false) :
    incTurn prev i nd vc = vc := by
  obtain ⟨v, c⟩ := vc
  cases nd <;>
    first
    | rfl
    | (simp only [incTurn]
       rw [if_neg]
       simp [h])

theorem checkInputsChanged_eq_any (c : List Bool) (nd : NodeOp) :
    checkInputsChanged c nd = (declaredInputs nd).any (fun j => c.getD j false) := by
  cases nd <;> simp [checkInputsChanged, declaredInputs]

theorem any_congr_mem {α : Type} (l : List α) (p q : α → Bool)
    (h : ∀ x ∈ l, p x = q x) : l.any p = l.any q := by
  induction l with
  | nil => rfl
  | cons x xs ih =>
    simp only [List.any_cons]
    rw [h x (List.mem_cons_self x xs), ih (fun y hy => h y (List.mem_cons_of_mem x hy))]

theorem computeVal_congr (v₁ v₂ : List F) (nd : NodeOp) (i : Nat)
    (hni : ∀ x, nd ≠ NodeOp.input x)
    (h : ∀ j ∈ declaredInputs nd, v₁.getD j (F.num 0) = v₂.getD j (F.num 0)) :
    computeVal v₁ nd i = computeVal v₂ nd i := by
  cases nd with
  | constant x => rfl
  | input x => exact absurd rfl (hni x)
  | add a b =>
    simp only [computeVal]
    rw [h a (by simp [declaredInputs]), h b (by simp [declaredInputs])]
  | multiply a b =>
    simp only [computeVal]
    rw [h a (by simp [declaredInputs]), h b (by simp [declaredInputs])]
  | sum inputs =>
    simp only [computeVal]
    have : inputs.map (fun j => v₁.getD j (F.num 0)) =
        inputs.map (fun j => v₂.getD j (F.num 0)) :=
      List.map_congr_left (fun j hj => h j (by simpa [declaredInputs] using hj))
    rw [this]
  | constantProduct x factor =>
    simp only [computeVal]
    rw [h x (by simp [declaredInputs])]
  | comparison a b op =>
    simp only [computeVal]
    rw [h a (by simp [declaredInputs]), h b (by simp [declaredInputs])]

/-! ### Lemmas about the incremental evaluation loop -/

theorem loopInc_fst_length (prev : List F) (l : List NodeOp) (i₀ : Nat)
    (vc : List F × List Bool) :
    (evalLoopInc prev l i₀ vc).1.length = vc.1.length := by
  induction l generalizing i₀ vc with
  | nil => rfl
  | cons nd rest ih =>
    simp only [evalLoopInc]
    rw [ih, incTurn_fst_length]

theorem loopInc_snd_length (prev : List F) (l : List NodeOp) (i₀ : Nat)
    (vc : List F × List Bool) :
    (evalLoopInc prev l i₀ vc).2.length = vc.2.length := by
  induction l generalizing i₀ vc with
  | nil => rfl
  | cons nd rest ih =>
    simp only [evalLoopInc]
    rw [ih, incTurn_snd_length]

theorem loopInc_preserve_lt (prev : List F) (l : List NodeOp) (i₀ : Nat)
    (vc : List F × List Bool) (j : Nat) (h : j < i₀) :
    (evalLoopInc prev l i₀ vc).1.getD j (F.num 0) = vc.1.getD j (F.num 0) ∧
    (evalLoopInc prev l i₀ vc).2.getD j false = vc.2.getD j false := by
  induction l generalizing i₀ vc with
  | nil => exact ⟨rfl, rfl⟩
  | cons nd rest ih =>
    simp only [evalLoopInc]
    have hne : i₀ ≠ j := fun hh => absurd (hh ▸ h) (Nat.lt_irrefl j)
    have h1 := incTurn_preserve_ne prev i₀ nd vc j hne
    have h2 := ih (i₀ + 1) (incTurn prev i₀ nd vc) (Nat.lt_succ_of_lt h)
    exact ⟨h2.1.trans h1.1, h2.2.trans h1.2⟩

theorem loopInc_changed_mono (prev : List F) (l : List NodeOp) (i₀ : Nat)
    (vc : List F × List Bool) (j : Nat)
    (h : (evalLoopInc prev l i₀ vc).2.getD j false = false) :
    vc.2.getD j false = false := by
  induction l generalizing i₀ vc with
  | nil => exact h
  | cons nd rest ih =>
    simp only [evalLoopInc] at h
    exact incTurn_changed_mono prev i₀ nd vc j (ih (i₀ + 1) _ h)

theorem loopInc_quiet (prev : List F) (l : List NodeOp) (i₀ : Nat)
    (vc : List F × List Bool) (k : Nat) (nd : NodeOp)
    (hk : l.get? k = some nd)
    (hquiet : ∀ j ∈ declaredInputs nd,
      (evalLoopInc prev l i₀ vc).2.getD j false = false) :
    (evalLoopInc prev l i₀ vc).1.getD (i₀ + k) (F.num 0) = vc.1.getD (i₀ + k) (F.num 0) ∧
    (evalLoopInc prev l i₀ vc).2.getD (i₀ + k) false = vc.2.getD (i₀ + k) false := by
  induction l generalizing i₀ vc k with
  | nil => exact absurd hk (by simp)
  | cons nd0 rest ih =>
    cases k with
    | zero =>
      have hnd : nd0 = nd := by simpa using hk
      subst hnd
      have hturn : incTurn prev i₀ nd0 vc = vc := by
        apply incTurn_id_of_unchanged
        rw [checkInputsChanged_eq_any]
        rw [List.any_eq_false]
        intro j hj
        have hfin := hquiet j hj
        simp only [evalLoopInc] at hfin
        have h1 := loopInc_changed_mono prev rest (i₀ + 1) _ j hfin
        simpa using incTurn_changed_mono prev i₀ nd0 vc j h1
      simp only [evalLoopInc, hturn, Nat.add_zero]
      exact loopInc_preserve_lt prev rest (i₀ + 1) vc i₀ (Nat.lt_succ_self i₀)
    | succ k' =>
      have hk' : rest.get? k' = some nd := by simpa using hk
      have hq' : ∀ j ∈ declaredInputs nd,
          (evalLoopInc prev rest (i₀ + 1) (incTurn prev i₀ nd0 vc)).2.getD j false = false := by
        intro j hj
        simpa [evalLoopInc] using hquiet j hj
      have hih := ih (i₀ + 1) (incTurn prev i₀ nd0 vc) k' hk' hq'
      have hne : i₀ ≠ i₀ + (k' + 1) := by omega
      have hpr := incTurn_preserve_ne prev i₀ nd0 vc (i₀ + (k' + 1)) hne
      have heq : i₀ + 1 + k' = i₀ + (k' + 1) := by omega
      rw [heq] at hih
      constructor
      · simpa [evalLoopInc] using hih.1.trans hpr.1
      · simpa [evalLoopInc] using hih.2.trans hpr.2

theorem loopInc_turn_char (prev : List F) (l : List NodeOp) (i₀ : Nat)
    (vc : List F × List Bool) (k : Nat) (nd : NodeOp)
    (hk : l.get? k = some nd)
    (hni : ∀ x, nd ≠ NodeOp.input x) (hnc : ∀ x, nd ≠ NodeOp.constant x)
    (htopo : ∀ j ∈ declaredInputs nd, j < i₀ + k)
    (hlen1 : i₀ + k < vc.1.length) (hlen2 : i₀ + k < vc.2.length)
    (hflag : vc.2.getD (i₀ + k) false = false) :
    (checkInputsChanged (evalLoopInc prev l i₀ vc).2 nd = true →
      (evalLoopInc prev l i₀ vc).1.getD (i₀ + k) (F.num 0) =
        computeVal (evalLoopInc prev l i₀ vc).1 nd (i₀ + k) ∧
      (evalLoopInc prev l i₀ vc).2.getD (i₀ + k) false =
        F.bigChange (computeVal (evalLoopInc prev l i₀ vc).1 nd (i₀ + k))
          (prev.getD (i₀ + k) (F.num 0))) ∧
    (checkInputsChanged (evalLoopInc prev l i₀ vc).2 nd = false →
      (evalLoopInc prev l i₀ vc).1.getD (i₀ + k) (F.num 0) = vc.1.getD (i₀ + k) (F.num 0) ∧
      (evalLoopInc prev l i₀ vc).2.getD (i₀ + k) false = false) := by
  induction l generalizing i₀ vc k with
  | nil => exact absurd hk (by simp)
  | cons nd0 rest ih =>
    cases k with
    | zero =>
      have hnd : nd0 = nd := by simpa using hk
      subst hnd
      rw [Nat.add_zero] at htopo hlen1 hlen2 hflag ⊢
      -- the loop after the turn at i₀ only touches indices above i₀
      have hloop : ∀ vc' : List F × List Bool,
          (evalLoopInc prev (nd0 :: rest) i₀ vc').1.getD i₀ (F.num 0) =
            (incTurn prev i₀ nd0 vc').1.getD i₀ (F.num 0) ∧
          (evalLoopInc prev (nd0 :: rest) i₀ vc').2.getD i₀ false =
            (incTurn prev i₀ nd0 vc').2.getD i₀ false := by
        intro vc'
        simp only [evalLoopInc]
        exact loopInc_preserve_lt prev rest (i₀ + 1) _ i₀ (Nat.lt_succ_self i₀)
      -- entries below i₀ are never touched at all
      have hbelow : ∀ j, j < i₀ →
          (evalLoopInc prev (nd0 :: rest) i₀ vc).1.getD j (F.num 0) = vc.1.getD j (F.num 0) ∧
          (evalLoopInc prev (nd0 :: rest) i₀ vc).2.getD j false = vc.2.getD j false := by
        intro j hj
        simp only [evalLoopInc]
        have h1 := loopInc_preserve_lt prev rest (i₀ + 1) (incTurn prev i₀ nd0 vc) j
          (Nat.lt_succ_of_lt hj)
        have h2 := incTurn_preserve_ne prev i₀ nd0 vc j
          (fun hh => absurd (hh ▸ hj) (Nat.lt_irrefl j))
        exact ⟨h1.1.trans h2.1, h1.2.trans h2.2⟩
      -- the check over the final flags equals the check at the turn
      have hcheck : checkInputsChanged (evalLoopInc prev (nd0 :: rest) i₀ vc).2 nd0 =
          checkInputsChanged vc.2 nd0 := by
        rw [checkInputsChanged_eq_any, checkInputsChanged_eq_any]
        apply any_congr_mem
        intro j hj
        exact (hbelow j (htopo j hj)).2
      -- the recompute over the final values equals the recompute at the turn
      have hcompute : computeVal (evalLoopInc prev (nd0 :: rest) i₀ vc).1 nd0 i₀ =
          computeVal vc.1 nd0 i₀ := by
        apply computeVal_congr _ _ _ _ hni
        intro j hj
        exact (hbelow j (htopo j hj)).1
      rw [hcheck, hcompute]
      have hturn := incTurn_eq_of_active prev i₀ nd0 vc hni hnc
      rcases Bool.eq_false_or_eq_true (checkInputsChanged vc.2 nd0) with hc | hc
      · rw [hc]
        refine ⟨fun _ => ?_, fun h => absurd h (by simp)⟩
        rw [hc] at hturn
        rw [if_pos rfl] at hturn
        have hl := hloop vc
        rw [hturn] at hl
        refine ⟨hl.1.trans (getD_set_self _ _ _ _ hlen1), ?_⟩
        rcases Bool.eq_false_or_eq_true
            (F.bigChange (computeVal vc.1 nd0 i₀) (prev.getD i₀ (F.num 0))) with hb | hb
        · rw [hb]
          rw [hb] at hl
          simp only [if_true] at hl
          exact hl.2.trans (getD_set_self _ _ _ _ hlen2)
        · rw [hb]
          rw [hb] at hl
          simp only [Bool.false_eq_true, if_false] at hl
          exact hl.2.trans hflag
      · rw [hc]
        refine ⟨fun h => absurd h (by simp), fun _ => ?_⟩
        rw [hc] at hturn
        rw [if_neg (by simp)] at hturn
        have hl := hloop vc
        rw [hturn] at hl
        exact ⟨hl.1, hl.2.trans hflag⟩
    | succ k' =>
      have hk' : rest.get? k' = some nd := by simpa using hk
      have heq : i₀ + (k' + 1) = i₀ + 1 + k' := by omega
      have hne : i₀ ≠ i₀ + (k' + 1) := by omega
      have hpr := incTurn_preserve_ne prev i₀ nd0 vc (i₀ + (k' + 1)) hne
      have hih := ih (i₀ + 1) (incTurn prev i₀ nd0 vc) k' hk'
        (by rw [← heq]; exact htopo)
        (by rw [← heq, incTurn_fst_length]; exact hlen1)
        (by rw [← heq, incTurn_snd_length]; exact hlen2)
        (by rw [← heq, hpr.2]; exact hflag)
      rw [← heq] at hih
      simp only [evalLoopInc]
      constructor
      · intro hc
        exact (hih.1 hc)
      · intro hc
        have := hih.2 hc
        exact ⟨this.1.trans hpr.1, this.2⟩

/-! ### Lemmas about the input-node bookkeeping -/

theorem collectInputs_mem_of_get? (l : List NodeOp) (i₀ k idx : Nat)
    (h : l.get? k = some (NodeOp.input idx)) : (i₀ + k, idx) ∈ collectInputs l i₀ := by
  induction l generalizing i₀ k with
  | nil => exact absurd h (by simp)
  | cons nd rest ih =>
    cases k with
    | zero =>
      have hnd : nd = NodeOp.input idx := by simpa using h
      subst hnd
      simp [collectInputs]
    | succ k' =>
      have h' : rest.get? k' = some (NodeOp.input idx) := by simpa using h
      have hmem := ih (i₀ + 1) k' h'
      have heq : i₀ + (k' + 1) = i₀ + 1 + k' := by omega
      rw [heq]
      cases nd <;> simp [collectInputs] <;>
        first
        | exact Or.inr hmem
        | exact hmem

theorem collectInputs_get?_of_mem (l : List NodeOp) (i₀ : Nat) (p : Nat × Nat)
    (h : p ∈ collectInputs l i₀) :
    ∃ k, p.1 = i₀ + k ∧ l.get? k = some (NodeOp.input p.2) := by
  induction l generalizing i₀ with
  | nil => exact absurd h (by simp [collectInputs])
  | cons nd rest ih =>
    have step : p ∈ collectInputs rest (i₀ + 1) →
        ∃ k, p.1 = i₀ + k ∧ (nd :: rest).get? k = some (NodeOp.input p.2) := by
      intro hmem
      obtain ⟨k, hk1, hk2⟩ := ih (i₀ + 1) hmem
      exact ⟨k + 1, by omega, by simpa using hk2⟩
    cases nd with
    | input idx =>
      rcases (by simpa [collectInputs] using h :
          p = (i₀, idx) ∨ p ∈ collectInputs rest (i₀ + 1)) with hp | hp
      · subst hp
        exact ⟨0, by omega, rfl⟩
      · exact step hp
    | constant x => exact step (by simpa [collectInputs] using h)
    | add a b => exact step (by simpa [collectInputs] using h)
    | multiply a b => exact step (by simpa [collectInputs] using h)
    | sum xs => exact step (by simpa [collectInputs] using h)
    | constantProduct x f => exact step (by simpa [collectInputs] using h)
    | comparison a b op => exact step (by simpa [collectInputs] using h)

theorem collectInputs_fst_ge (l : List NodeOp) (i₀ : Nat) (p : Nat × Nat)
    (h : p ∈ collectInputs l i₀) : i₀ ≤ p.1 := by
  obtain ⟨k, hk, _⟩ := collectInputs_get?_of_mem l i₀ p h
  omega

theorem collectInputs_fst_nodup (l : List NodeOp) (i₀ : Nat) :
    ((collectInputs l i₀).map Prod.fst).Nodup := by
  induction l generalizing i₀ with
  | nil => simp [collectInputs]
  | cons nd rest ih =>
    cases nd with
    | input idx =>
      simp only [collectInputs, List.map_cons]
      refine List.nodup_cons.2 ⟨?_, ih (i₀ + 1)⟩
      intro hmem
      obtain ⟨p, hp, hfst⟩ := List.mem_map.1 hmem
      have := collectInputs_fst_ge rest (i₀ + 1) p hp
      omega
    | constant x => exact ih (i₀ + 1)
    | add a b => exact ih (i₀ + 1)
    | multiply a b => exact ih (i₀ + 1)
    | sum xs => exact ih (i₀ + 1)
    | constantProduct x f => exact ih (i₀ + 1)
    | comparison a b op => exact ih (i₀ + 1)

theorem updInputs_preserve (row prev : List F) (pairs : List (Nat × Nat))
    (vc : List F × List Bool) (out : List F × List Bool)
    (h : updInputs row prev pairs vc = some out) (j : Nat)
    (hj : ∀ p ∈ pairs, p.1 ≠ j) :
    out.1.getD j (F.num 0) = vc.1.getD j (F.num 0) ∧
    out.2.getD j false = vc.2.getD j false := by
  induction pairs generalizing vc with
  | nil =>
    have : vc = out := by simpa [updInputs] using h
    rw [← this]
    exact ⟨rfl, rfl⟩
  | cons p rest ih =>
    obtain ⟨nid, idx⟩ := p
    obtain ⟨v, c⟩ := vc
    have hne : nid ≠ j := hj (nid, idx) (List.mem_cons_self _ _)
    simp only [updInputs] at h
    rcases hrow : row.get? idx with _ | newVal
    · rw [hrow] at h
      dsimp only at h
      exact absurd h (by simp)
    · rw [hrow] at h
      dsimp only at h
      rcases Bool.eq_false_or_eq_true
          (F.bigChange newVal (prev.getD nid (F.num 0))) with hb | hb
      · rw [if_pos hb] at h
        have hih := ih _ h (fun q hq => hj q (List.mem_cons_of_mem _ hq))
        exact ⟨hih.1.trans (getD_set_ne v nid j _ _ hne),
               hih.2.trans (getD_set_ne c nid j _ _ hne)⟩
      · rw [if_neg (fun hh => absurd (hb.symm.trans hh) (by simp))] at h
        exact ih _ h (fun q hq => hj q (List.mem_cons_of_mem _ hq))

theorem updInputs_lengths (row prev : List F) (pairs : List (Nat × Nat))
    (vc : List F × List Bool) (out : List F × List Bool)
    (h : updInputs row prev pairs vc = some out) :
    out.1.length = vc.1.length ∧ out.2.length = vc.2.length := by
  induction pairs generalizing vc with
  | nil =>
    have : vc = out := by simpa [updInputs] using h
    rw [← this]
    exact ⟨rfl, rfl⟩
  | cons p rest ih =>
    obtain ⟨nid, idx⟩ := p
    obtain ⟨v, c⟩ := vc
    simp only [updInputs] at h
    rcases hrow : row.get? idx with _ | newVal
    · rw [hrow] at h
      dsimp only at h
      exact absurd h (by simp)
    · rw [hrow] at h
      dsimp only at h
      rcases Bool.eq_false_or_eq_true
          (F.bigChange newVal (prev.getD nid (F.num 0))) with hb | hb
      · rw [if_pos hb] at h
        have hih := ih _ h
        simpa [List.length_set] using hih
      · rw [if_neg (fun hh => absurd (hb.symm.trans hh) (by simp))] at h
        exact ih _ h

theorem updInputs_isSome (row prev : List F) (pairs : List (Nat × Nat))
    (vc : List F × List Bool) (h : ∀ p ∈ pairs, p.2 < row.length) :
    (updInputs row prev pairs vc).isSome = true := by
  induction pairs generalizing vc with
  | nil => rfl
  | cons p rest ih =>
    obtain ⟨nid, idx⟩ := p
    obtain ⟨v, c⟩ := vc
    have hidx : idx < row.length := h (nid, idx) (List.mem_cons_self _ _)
    simp only [updInputs]
    rw [List.get?_eq_get hidx]
    dsimp only
    split
    · exact ih _ (fun q hq => h q (List.mem_cons_of_mem _ hq))
    · exact ih _ (fun q hq => h q (List.mem_cons_of_mem _ hq))

theorem updInputs_char (row prev : List F) (pairs : List (Nat × Nat))
    (hnd : (pairs.map Prod.fst).Nodup) (i idx : Nat) (hmem : (i, idx) ∈ pairs)
    (newVal : F) (hrow : row.get? idx = some newVal)
    (vc : List F × List Bool) (out : List F × List Bool)
    (h : updInputs row prev pairs vc = some out)
    (hlen1 : i < vc.1.length) (hlen2 : i < vc.2.length) :
    (F.bigChange newVal (prev.getD i (F.num 0)) = true →
      out.1.getD i (F.num 0) = newVal ∧ out.2.getD i false = true) ∧
    (F.bigChange newVal (prev.getD i (F.num 0)) = false →
      out.1.getD i (F.num 0) = vc.1.getD i (F.num 0) ∧
      out.2.getD i false = vc.2.getD i false) := by
  induction pairs generalizing vc with
  | nil => exact absurd hmem (by simp)
  | cons p rest ih =>
    obtain ⟨nid, jdx⟩ := p
    obtain ⟨v, c⟩ := vc
    simp only [updInputs] at h
    rcases List.mem_cons.1 hmem with hhead | htail
    · -- the head is the pair for node i
      have hi : nid = i := by
        have := congrArg Prod.fst hhead.symm
        simpa using this
      have hj : jdx = idx := by
        have := congrArg Prod.snd hhead.symm
        simpa using this
      subst hi
      subst hj
      have hrest : ∀ q ∈ rest, q.1 ≠ nid := by
        intro q hq hqe
        have hnodup := List.nodup_cons.1 hnd
        refine hnodup.1 ?_
        rw [← hqe]
        exact List.mem_map.2 ⟨q, hq, rfl⟩
      rw [hrow] at h
      dsimp only at h
      rcases Bool.eq_false_or_eq_true
          (F.bigChange newVal (prev.getD nid (F.num 0))) with hb | hb
      · rw [if_pos hb] at h
        have hpr := updInputs_preserve row prev rest _ _ h nid hrest
        refine ⟨fun _ => ?_, fun hcontra => absurd (hb.symm.trans hcontra) (by simp)⟩
        constructor
        · exact hpr.1.trans (getD_set_self v nid newVal _ hlen1)
        · exact hpr.2.trans (getD_set_self c nid true _ hlen2)
      · rw [if_neg (fun hh => absurd (hb.symm.trans hh) (by simp))] at h
        have hpr := updInputs_preserve row prev rest _ _ h nid hrest
        exact ⟨fun hcontra => absurd (hb.symm.trans hcontra) (by simp),
               fun _ => ⟨hpr.1, hpr.2⟩⟩
    · -- the pair for node i sits in the tail
      have hnid : nid ≠ i := by
        intro he
        have hnodup := List.nodup_cons.1 hnd
        refine hnodup.1 ?_
        rw [he]
        exact List.mem_map.2 ⟨(i, idx), htail, rfl⟩
      rcases hrow2 : row.get? jdx with _ | w
      · rw [hrow2] at h
        dsimp only at h
        exact absurd h (by simp)
      · rw [hrow2] at h
        dsimp only at h
        rcases Bool.eq_false_or_eq_true
            (F.bigChange w (prev.getD nid (F.num 0))) with hb | hb
        · rw [if_pos hb] at h
          have hih := ih (List.nodup_cons.1 hnd).2 htail _ h
            (by simpa [List.length_set] using hlen1)
            (by simpa [List.length_set] using hlen2)
          refine ⟨hih.1, fun hb2 => ?_⟩
          have := hih.2 hb2
          exact ⟨this.1.trans (getD_set_ne v nid i _ _ hnid),
                 this.2.trans (getD_set_ne c nid i _ _ hnid)⟩
        · rw [if_neg (fun hh => absurd (hb.symm.trans hh) (by simp))] at h
          exact ih (List.nodup_cons.1 hnd).2 htail _ h hlen1 hlen2

theorem setInputsFirst_lengths (row : List F) (pairs : List (Nat × Nat))
    (v : List F) (out : List F) (h : setInputsFirst row pairs v = some out) :
    out.length = v.length := by
  induction pairs generalizing v with
  | nil =>
    have : v = out := by simpa [setInputsFirst] using h
    rw [← this]
  | cons p rest ih =>
    obtain ⟨nid, idx⟩ := p
    simp only [setInputsFirst] at h
    rcases hrow : row.get? idx with _ | newVal
    · rw [hrow] at h
      dsimp only at h
      exact absurd h (by simp)
    · rw [hrow] at h
      dsimp only at h
      have := ih _ h
      simpa [List.length_set] using this

theorem setInputsFirst_isSome (row : List F) (pairs : List (Nat × Nat))
    (v : List F) (h : ∀ p ∈ pairs, p.2 < row.length) :
    (setInputsFirst row pairs v).isSome = true := by
  induction pairs generalizing v with
  | nil => rfl
  | cons p rest ih =>
    obtain ⟨nid, idx⟩ := p
    have hidx : idx < row.length := h (nid, idx) (List.mem_cons_self _ _)
    simp only [setInputsFirst]
    rw [List.get?_eq_get hidx]
    exact ih _ (fun q hq => h q (List.mem_cons_of_mem _ hq))

/-! ### Lemmas about the first-run evaluation loop -/

theorem firstLoop_length (l : List NodeOp) (i₀ : Nat) (v : List F) :
    (evalLoopFirst l i₀ v).length = v.length := by
  induction l generalizing i₀ v with
  | nil => rfl
  | cons nd rest ih =>
    cases nd <;> simp only [evalLoopFirst] <;> rw [ih] <;> simp [List.length_set]

theorem firstLoop_preserve_lt (l : List NodeOp) (i₀ : Nat) (v : List F) (j : Nat)
    (h : j < i₀) :
    (evalLoopFirst l i₀ v).getD j (F.num 0) = v.getD j (F.num 0) := by
  induction l generalizing i₀ v with
  | nil => rfl
  | cons nd rest ih =>
    have hne : i₀ ≠ j := by omega
    cases nd <;> simp only [evalLoopFirst] <;>
      rw [ih (i₀ + 1) _ (Nat.lt_succ_of_lt h)] <;>
      first
      | rfl
      | exact getD_set_ne v i₀ j _ _ hne

theorem firstLoop_const (l : List NodeOp) (i₀ : Nat) (v : List F) (k : Nat) (x : F)
    (hk : l.get? k = some (NodeOp.constant x)) (hlen : i₀ + k < v.length) :
    (evalLoopFirst l i₀ v).getD (i₀ + k) (F.num 0) = x := by
  induction l generalizing i₀ v k with
  | nil => exact absurd hk (by simp)
  | cons nd rest ih =>
    cases k with
    | zero =>
      have hnd : nd = NodeOp.constant x := by simpa using hk
      subst hnd
      rw [Nat.add_zero] at hlen ⊢
      simp only [evalLoopFirst]
      rw [firstLoop_preserve_lt rest (i₀ + 1) _ i₀ (Nat.lt_succ_self i₀)]
      exact getD_set_self v i₀ _ _ hlen
    | succ k' =>
      have hk' : rest.get? k' = some (NodeOp.constant x) := by simpa using hk
      have heq : i₀ + (k' + 1) = i₀ + 1 + k' := by omega
      rw [heq]
      cases nd <;> simp only [evalLoopFirst] <;>
        exact ih (i₀ + 1) _ k' hk'
          (by first
              | (rw [List.length_set]; omega)
              | omega)

/-! ### Inversion of one evaluator step -/

theorem evaluateStep_inc_inv (e : Engine) (s : EngState) (row : List F)
    (s' : EngState) (em : Option (List F))
    (hfr : s.firstRun = false)
    (h : evaluateStep e s row = some (s', em)) :
    ∃ vc1, updInputs row s.prevValues (collectInputs e.nodes 0)
        (s.prevValues, List.replicate e.nodes.length false) = some vc1 ∧
      s'.values = (evalLoopInc s.prevValues e.nodes 0 vc1).1 ∧
      s'.prevValues = (evalLoopInc s.prevValues e.nodes 0 vc1).1 ∧
      s'.changed = (evalLoopInc s.prevValues e.nodes 0 vc1).2 ∧
      s'.firstRun = false := by
  rw [evaluateStep, if_neg (by simp [hfr])] at h
  obtain ⟨vc1, hvc, heq⟩ := Option.map_eq_some'.1 h
  refine ⟨vc1, hvc, ?_⟩
  simp only [finishStep] at heq
  obtain ⟨hs, _⟩ := Prod.mk.inj heq
  rw [← hs]
  exact ⟨rfl, rfl, rfl, rfl⟩

theorem evaluateStep_first_inv (e : Engine) (s : EngState) (row : List F)
    (s' : EngState) (em : Option (List F))
    (hfr : s.firstRun = true)
    (h : evaluateStep e s row = some (s', em)) :
    ∃ v1, setInputsFirst row (collectInputs e.nodes 0) s.values = some v1 ∧
      s'.values = evalLoopFirst e.nodes 0 v1 ∧
      s'.prevValues = evalLoopFirst e.nodes 0 v1 ∧
      s'.changed = List.replicate e.nodes.length true ∧
      s'.firstRun = false := by
  rw [evaluateStep, if_pos (by simp [hfr])] at h
  obtain ⟨v1, hv1, heq⟩ := Option.map_eq_some'.1 h
  refine ⟨v1, hv1, ?_⟩
  simp only [finishStep] at heq
  obtain ⟨hs, _⟩ := Prod.mk.inj heq
  rw [← hs]
  exact ⟨rfl, rfl, rfl, rfl⟩

theorem not_input_id (e : Engine) (i : Nat) (nd : NodeOp)
    (hi : e.nodes.get? i = some nd) (hni : ∀ x, nd ≠ NodeOp.input x) :
    ∀ p ∈ collectInputs e.nodes 0, p.1 ≠ i := by
  intro p hp hpe
  obtain ⟨k, hk1, hk2⟩ := collectInputs_get?_of_mem e.nodes 0 p hp
  rw [hpe] at hk1
  have hki : k = i := by omega
  rw [hki] at hk2
  rw [hi] at hk2
  exact hni p.2 (by injection hk2)

/-- The behaviour of a non-first step at a non-`Input`, non-`Constant` node
whose declared inputs all precede it: the recomputed value is written to
`value[i]` whenever any declared input is flagged, and the changed flag is
exactly the epsilon test on the recomputed value against the previous one. -/
theorem stepInc_active_char (e : Engine) (s : EngState) (row : List F)
    (s' : EngState) (em : Option (List F)) (i : Nat) (nd : NodeOp)
    (hstep : evaluateStep e s row = some (s', em))
    (hfr : s.firstRun = false)
    (hlen : s.prevValues.length = e.nodes.length)
    (hi : e.nodes.get? i = some nd)
    (hni : ∀ x, nd ≠ NodeOp.input x) (hnc : ∀ x, nd ≠ NodeOp.constant x)
    (htopo : ∀ j ∈ declaredInputs nd, j < i) :
    (checkInputsChanged s'.changed nd = true →
      s'.values.getD i (F.num 0) = computeVal s'.values nd i ∧
      s'.changed.getD i false =
        F.bigChange (computeVal s'.values nd i) (s.prevValues.getD i (F.num 0))) ∧
    (checkInputsChanged s'.changed nd = false →
      s'.values.getD i (F.num 0) = s.prevValues.getD i (F.num 0) ∧
      s'.changed.getD i false = false) := by
  obtain ⟨vc1, hvc, hv, hp, hc, _⟩ := evaluateStep_inc_inv e s row s' em hfr hstep
  have hin : i < e.nodes.length := by
    by_contra hcon
    rw [List.get?_eq_none.2 (Nat.le_of_not_lt hcon)] at hi
    exact absurd hi (by simp)
  have hnotin := not_input_id e i nd hi hni
  have hupd := updInputs_preserve row s.prevValues _ _ _ hvc i hnotin
  have hlens := updInputs_lengths row s.prevValues _ _ _ hvc
  have hlen1 : i < vc1.1.length := by
    rw [hlens.1]
    simpa [hlen] using hin
  have hlen2 : i < vc1.2.length := by
    rw [hlens.2]
    simpa using hin
  have hflag : vc1.2.getD i false = false := by
    rw [hupd.2]
    exact getD_replicate e.nodes.length i false
  have hchar := loopInc_turn_char s.prevValues e.nodes 0 vc1 i nd
    (by simpa using hi) hni hnc (by simpa using htopo)
    (by simpa using hlen1) (by simpa using hlen2) (by simpa using hflag)
  rw [Nat.zero_add] at hchar
  rw [← hc, ← hv] at hchar
  refine ⟨hchar.1, fun hch => ?_⟩
  have := hchar.2 hch
  exact ⟨this.1.trans hupd.1, this.2⟩

/-! ### Claim theorems: incremental-step behaviour -/

/-- Claim C3 (corrected): on a non-first step, a non-`Input` non-`Constant`
node with at least one flagged declared input (all declared inputs preceding
it) is recomputed, and the recomputed value is always written to `value[i]`;
`changed[i]` is set exactly when the recomputed value differs from the prior
`value[i]` beyond the epsilon test.  The claim's clause "otherwise restore
the old value" fails on the code: a sub-epsilon recomputed value is
retained, not discarded. -/
theorem recompute_value_always_written (e : Engine) (s : EngState) (row : List F)
    (s' : EngState) (em : Option (List F)) (i : Nat) (nd : NodeOp)
    (hstep : evaluateStep e s row = some (s', em))
    (hfr : s.firstRun = false)
    (hlen : s.prevValues.length = e.nodes.length)
    (hi : e.nodes.get? i = some nd)
    (hni : ∀ x, nd ≠ NodeOp.input x) (hnc : ∀ x, nd ≠ NodeOp.constant x)
    (htopo : ∀ j ∈ declaredInputs nd, j < i)
    (hch : checkInputsChanged s'.changed nd = true) :
    s'.values.getD i (F.num 0) = computeVal s'.values nd i ∧
    s'.changed.getD i false =
      F.bigChange (computeVal s'.values nd i) (s.prevValues.getD i (F.num 0)) :=
  (stepInc_active_char e s row s' em i nd hstep hfr hlen hi hni hnc htopo).1 hch

/-- Claim C4 (corrected): on a non-first step, a recompute that yields NaN
never sets the changed flag, because `(NaN - old).abs() > f64::EPSILON` is
false for every `old` — the spec's claim that a NaN transition counts as a
change fails on the code. -/
theorem nan_recompute_never_changed (e : Engine) (s : EngState) (row : List F)
    (s' : EngState) (em : Option (List F)) (i : Nat) (nd : NodeOp)
    (hstep : evaluateStep e s row = some (s', em))
    (hfr : s.firstRun = false)
    (hlen : s.prevValues.length = e.nodes.length)
    (hi : e.nodes.get? i = some nd)
    (hni : ∀ x, nd ≠ NodeOp.input x) (hnc : ∀ x, nd ≠ NodeOp.constant x)
    (htopo : ∀ j ∈ declaredInputs nd, j < i)
    (hch : checkInputsChanged s'.changed nd = true)
    (hnan : computeVal s'.values nd i = F.nan) :
    s'.changed.getD i false = false := by
  have h := (stepInc_active_char e s row s' em i nd hstep hfr hlen hi hni hnc htopo).1 hch
  rw [h.2, hnan]
  exact bigChange_nan_left _

/-- Claim C2 (corrected): on a non-first step, an `Input` node's value and
changed flag are updated iff the new row value differs from the previous
value by more than `f64::EPSILON` — an epsilon tolerance, not the strict
bitwise inequality the claim states (sub-epsilon nonzero differences are
dropped; see the counterexample). -/
theorem input_change_epsilon_test (e : Engine) (s : EngState) (row : List F)
    (s' : EngState) (em : Option (List F)) (i idx : Nat) (newV : F)
    (hstep : evaluateStep e s row = some (s', em))
    (hfr : s.firstRun = false)
    (hlen : s.prevValues.length = e.nodes.length)
    (hi : e.nodes.get? i = some (NodeOp.input idx))
    (hrow : row.get? idx = some newV) :
    (F.bigChange newV (s.prevValues.getD i (F.num 0)) = true →
      s'.values.getD i (F.num 0) = newV ∧ s'.changed.getD i false = true) ∧
    (F.bigChange newV (s.prevValues.getD i (F.num 0)) = false →
      s'.values.getD i (F.num 0) = s.prevValues.getD i (F.num 0) ∧
      s'.changed.getD i false = false) := by
  obtain ⟨vc1, hvc, hv, hp, hc, _⟩ := evaluateStep_inc_inv e s row s' em hfr hstep
  have hin : i < e.nodes.length := by
    by_contra hcon
    rw [List.get?_eq_none.2 (Nat.le_of_not_lt hcon)] at hi
    exact absurd hi (by simp)
  have hmem : (i, idx) ∈ collectInputs e.nodes 0 := by
    simpa using collectInputs_mem_of_get? e.nodes 0 i idx hi
  have hchar := updInputs_char row s.prevValues _ (collectInputs_fst_nodup e.nodes 0)
    i idx hmem newV hrow _ _ hvc (by simpa [hlen] using hin) (by simpa using hin)
  have hq := loopInc_quiet s.prevValues e.nodes 0 vc1 i (NodeOp.input idx)
    (by simpa using hi)
    (by intro j hj; exact absurd hj (by simp [declaredInputs]))
  rw [Nat.zero_add] at hq
  constructor
  · intro hb
    have h1 := hchar.1 hb
    exact ⟨by rw [hv]; exact hq.1.trans h1.1, by rw [hc]; exact hq.2.trans h1.2⟩
  · intro hb
    have h2 := hchar.2 hb
    constructor
    · rw [hv]
      exact hq.1.trans (h2.1.trans (by simp))
    · rw [hc]
      refine hq.2.trans (h2.2.trans ?_)
      exact getD_replicate e.nodes.length i false

/-- Claim C10 (confirmed): on a non-first step, a non-`Input` node none of
whose declared inputs ends the step flagged is not recomputed: its value
after the step equals its value after the previous step (`prev_values`,
equal to `values` by the post-step copy) and its changed flag stays
false. -/
theorem unchanged_inputs_skip (e : Engine) (s : EngState) (row : List F)
    (s' : EngState) (em : Option (List F)) (i : Nat) (nd : NodeOp)
    (hstep : evaluateStep e s row = some (s', em))
    (hfr : s.firstRun = false)
    (hprev : s.prevValues = s.values)
    (hi : e.nodes.get? i = some nd)
    (hni : ∀ x, nd ≠ NodeOp.input x)
    (hquiet : ∀ j ∈ declaredInputs nd, s'.changed.getD j false = false) :
    s'.values.getD i (F.num 0) = s.values.getD i (F.num 0) ∧
    s'.changed.getD i false = false := by
  obtain ⟨vc1, hvc, hv, hp, hc, _⟩ := evaluateStep_inc_inv e s row s' em hfr hstep
  have hnotin := not_input_id e i nd hi hni
  have hupd := updInputs_preserve row s.prevValues _ _ _ hvc i hnotin
  have hq2 : ∀ j ∈ declaredInputs nd,
      (evalLoopInc s.prevValues e.nodes 0 vc1).2.getD j false = false := by
    intro j hj
    rw [← hc]
    exact hquiet j hj
  have hloop := loopInc_quiet s.prevValues e.nodes 0 vc1 i nd (by simpa using hi) hq2
  rw [Nat.zero_add] at hloop
  constructor
  · rw [hv]
    refine hloop.1.trans (hupd.1.trans ?_)
    rw [← hprev]
  · rw [hc]
    refine hloop.2.trans (hupd.2.trans ?_)
    exact getD_replicate e.nodes.length i false

/-! ### Counterexamples and witnesses for the incremental-step claims -/

/-- Claim C2 counterexample: after a first step on `[0]`, presenting the
row `[2⁻⁵³]` — whose value differs from the stored `0` under the strict
bitwise test — leaves the input node's value at `0` and its changed flag
false, because `2⁻⁵³` is not greater than `f64::EPSILON`.  This refutes the
claim that change detection uses strict bitwise inequality. -/
theorem input_subepsilon_ignored :
    traceValueAt c2eng c2rows 1 0 = some (F.num 0) ∧
    traceChangedAt c2eng c2rows 1 0 = some false ∧
    F.fne (F.num ((1 : ℚ) / 2 ^ 53)) (F.num 0) = true := by
  refine ⟨?_, ?_, by norm_num [F.fne, F.beq]⟩ <;>
    norm_num [traceValueAt, traceChangedAt, runTrace, evaluateStep, initState,
      collectInputs, updInputs, setInputsFirst, evalLoopFirst, evalLoopInc, incTurn,
      computeVal, checkInputsChanged, finishStep, F.bigChange, F.fgt, F.flt, F.fabs,
      F.sub, F.add, F.mul, F.epsF, F.beq, List.getD, List.set, List.replicate,
      c2eng, c2rows]

theorem input_change_epsilon_test_witness :
    (evaluateStep c2eng c2state [F.num ((1 : ℚ) / 2 ^ 53)] = some (c2stateAfter, none)) ∧
    (F.bigChange (F.num ((1 : ℚ) / 2 ^ 53)) (c2state.prevValues.getD 0 (F.num 0)) = false →
      c2stateAfter.values.getD 0 (F.num 0) = c2state.prevValues.getD 0 (F.num 0) ∧
      c2stateAfter.changed.getD 0 false = false) := by
  have hstep : evaluateStep c2eng c2state [F.num ((1 : ℚ) / 2 ^ 53)] =
      some (c2stateAfter, none) := by
    norm_num [evaluateStep, c2eng, c2state, c2stateAfter, collectInputs, updInputs,
      evalLoopInc, incTurn, computeVal, checkInputsChanged, finishStep, F.bigChange,
      F.fgt, F.flt, F.fabs, F.sub, F.add, F.epsF, F.beq, List.getD, List.set,
      List.replicate]
  exact ⟨hstep, (input_change_epsilon_test c2eng c2state _ c2stateAfter none 0 0 _
    hstep rfl rfl rfl rfl).2⟩

/-- Claim C3 counterexample: after a first step on `[0]`, the row `[256]`
makes the product node recompute to `2⁻⁵²` (within epsilon of the prior
`0`), which is retained in `value[1]` — the old value `0` is NOT restored —
while the changed flag stays false. -/
theorem subepsilon_recompute_retained :
    traceValueAt c3eng c3rows 1 1 = some (F.num ((1 : ℚ) / 2 ^ 52)) ∧
    traceChangedAt c3eng c3rows 1 1 = some false ∧
    traceValueAt c3eng c3rows 0 1 = some (F.num 0) ∧
    F.num ((1 : ℚ) / 2 ^ 52) ≠ F.num 0 := by
  refine ⟨?_, ?_, ?_, by norm_num⟩ <;>
    norm_num [traceValueAt, traceChangedAt, runTrace, evaluateStep, initState,
      collectInputs, updInputs, setInputsFirst, evalLoopFirst, evalLoopInc, incTurn,
      computeVal, checkInputsChanged, finishStep, F.bigChange, F.fgt, F.flt, F.fabs,
      F.sub, F.add, F.mul, F.epsF, F.beq, List.getD, List.set, List.replicate,
      c3eng, c3rows]

theorem recompute_value_always_written_witness :
    (evaluateStep c3eng c3state [F.num 256] = some (c3stateAfter, none)) ∧
    (checkInputsChanged c3stateAfter.changed
      (NodeOp.constantProduct 0 (F.num ((1 : ℚ) / 2 ^ 60))) = true) ∧
    (c3stateAfter.values.getD 1 (F.num 0) =
      computeVal c3stateAfter.values (NodeOp.constantProduct 0 (F.num ((1 : ℚ) / 2 ^ 60))) 1 ∧
     c3stateAfter.changed.getD 1 false =
      F.bigChange
        (computeVal c3stateAfter.values (NodeOp.constantProduct 0 (F.num ((1 : ℚ) / 2 ^ 60))) 1)
        (c3state.prevValues.getD 1 (F.num 0))) := by
  have hstep : evaluateStep c3eng c3state [F.num 256] = some (c3stateAfter, none) := by
    norm_num [evaluateStep, c3eng, c3state, c3stateAfter, collectInputs, updInputs,
      evalLoopInc, incTurn, computeVal, checkInputsChanged, finishStep, F.bigChange,
      F.fgt, F.flt, F.fabs, F.sub, F.add, F.mul, F.epsF, F.beq, List.getD, List.set,
      List.replicate]
  refine ⟨hstep, by decide, ?_⟩
  exact recompute_value_always_written c3eng c3state _ c3stateAfter none 1 _
    hstep rfl rfl rfl (fun x h => NodeOp.noConfusion h) (fun x h => NodeOp.noConfusion h)
    (by decide) (by decide)

/-- Claim C4 counterexample: with prior sum `0` (non-NaN), the row
`[+∞, -∞]` makes the `Add` node recompute to NaN, yet its changed flag is
false after the step — the NaN transition does not count as a change. -/
theorem nan_transition_unchanged :
    traceValueAt c4eng c4rows 1 2 = some F.nan ∧
    traceChangedAt c4eng c4rows 1 2 = some false ∧
    traceValueAt c4eng c4rows 0 2 = some (F.num 0) := by
  refine ⟨?_, ?_, ?_⟩ <;>
    norm_num [traceValueAt, traceChangedAt, runTrace, evaluateStep, initState,
      collectInputs, updInputs, setInputsFirst, evalLoopFirst, evalLoopInc, incTurn,
      computeVal, checkInputsChanged, finishStep, F.bigChange, F.fgt, F.flt, F.fabs,
      F.sub, F.add, F.mul, F.epsF, F.beq, List.getD, List.set, List.replicate,
      c4eng, c4rows]

theorem nan_recompute_never_changed_witness :
    (evaluateStep c4eng c4state [F.inf true, F.inf false] = some (c4stateAfter, none)) ∧
    (computeVal c4stateAfter.values (NodeOp.add 0 1) 2 = F.nan) ∧
    c4stateAfter.changed.getD 2 false = false := by
  have hstep : evaluateStep c4eng c4state [F.inf true, F.inf false] =
      some (c4stateAfter, none) := by
    norm_num [evaluateStep, c4eng, c4state, c4stateAfter, collectInputs, updInputs,
      evalLoopInc, incTurn, computeVal, checkInputsChanged, finishStep, F.bigChange,
      F.fgt, F.flt, F.fabs, F.sub, F.add, F.mul, F.epsF, F.beq, List.getD, List.set,
      List.replicate]
  refine ⟨hstep, by decide, ?_⟩
  exact nan_recompute_never_changed c4eng c4state _ c4stateAfter none 2 _
    hstep rfl rfl rfl (fun x h => NodeOp.noConfusion h) (fun x h => NodeOp.noConfusion h)
    (by decide) (by decide) (by decide)

theorem unchanged_inputs_skip_witness :
    (evaluateStep c10eng c10state [F.num 1] = some (c10stateAfter, none)) ∧
    (c10stateAfter.values.getD 2 (F.num 0) = c10state.values.getD 2 (F.num 0) ∧
     c10stateAfter.changed.getD 2 false = false) := by
  have hstep : evaluateStep c10eng c10state [F.num 1] = some (c10stateAfter, none) := by
    norm_num [evaluateStep, c10eng, c10state, c10stateAfter, collectInputs, updInputs,
      evalLoopInc, incTurn, computeVal, checkInputsChanged, finishStep, F.bigChange,
      F.fgt, F.flt, F.fabs, F.sub, F.add, F.mul, F.epsF, F.beq, List.getD, List.set,
      List.replicate]
  refine ⟨hstep, ?_⟩
  exact unchanged_inputs_skip c10eng c10state _ c10stateAfter none 2 _
    hstep rfl rfl rfl (fun x h => NodeOp.noConfusion h) (by decide)

/-- Claim C1 counterexample: the `Engine` evaluator gates emission on the
trigger's per-step epsilon changed flag, not on a `last_trigger` protocol.
Driving `c1eng` with rows `0, 256, 512, 0` lets the trigger drift silently
by exactly epsilon per step and then jump back, producing the emitted
trigger sequence `[0, 0]` — two consecutive equal emitted values, which the
claim asserts cannot happen. -/
theorem engine_consecutive_equal_emissions :
    traceEmissions c1eng c1rows = some [some [F.num 0], none, none, some [F.num 0]] ∧
    (traceEmissions c1eng c1rows).map (fun l => l.filterMap id) =
      some [[F.num 0], [F.num 0]] := by
  constructor <;>
    norm_num [traceEmissions, runTrace, evaluateStep, initState,
      collectInputs, updInputs, setInputsFirst, evalLoopFirst, evalLoopInc, incTurn,
      computeVal, checkInputsChanged, finishStep, F.bigChange, F.fgt, F.flt, F.fabs,
      F.sub, F.add, F.mul, F.epsF, F.beq, List.getD, List.set, List.replicate,
      List.filterMap_cons, c1eng, c1rows]

/-! ### Builder lemmas: id-map bounds -/

theorem lookup_mem {β : Type} (m : List (String × β)) (k : String) (v : β)
    (h : m.lookup k = some v) : (k, v) ∈ m := by
  induction m with
  | nil => exact absurd h (by simp [List.lookup])
  | cons p rest ih =>
    obtain ⟨a, b⟩ := p
    simp only [List.lookup] at h
    rcases hk : (k == a) with _ | _
    · rw [hk] at h
      exact List.mem_cons_of_mem _ (ih h)
    · rw [hk] at h
      have hv : b = v := by simpa using h
      have hka : k = a := by simpa using hk
      rw [← hv, hka]
      exact List.mem_cons_self _ _

theorem idMapOf_lt (nodes : List YNode) (i₀ : Nat) (p : String × Nat)
    (h : p ∈ idMapOf nodes i₀) : p.2 < i₀ + nodes.length := by
  induction nodes generalizing i₀ with
  | nil => exact absurd h (by simp [idMapOf])
  | cons nd rest ih =>
    rcases (by simpa [idMapOf] using h : p = (nd.id, i₀) ∨ p ∈ idMapOf rest (i₀ + 1))
        with hp | hp
    · rw [hp]
      simp
    · have := ih (i₀ + 1) hp
      simp only [List.length_cons]
      omega

theorem idLookup_lt (nodes : List YNode) (key : String) (v : Nat)
    (h : idLookup (idMapOf nodes 0) key = some v) : v < nodes.length := by
  have hmem := lookup_mem _ key v h
  rw [List.mem_reverse] at hmem
  have := idMapOf_lt nodes 0 (key, v) hmem
  simpa using this

theorem resolveNode_refs (m : List (String × Nat)) (sp : YSpec) (op : NodeOp)
    (h : resolveNode m sp = Except.ok op) :
    ∀ j ∈ declaredInputs op, ∃ key, idLookup m key = some j := by
  cases sp with
  | constant v =>
    have : op = NodeOp.constant v := by
      simpa [resolveNode] using h.symm
    rw [this]
    simp [declaredInputs]
  | input k =>
    have : op = NodeOp.input k := by
      simpa [resolveNode] using h.symm
    rw [this]
    simp [declaredInputs]
  | add a b =>
    simp only [resolveNode] at h
    rcases ha : idLookup m a with _ | x
    · rw [ha] at h
      exact absurd h (by simp)
    · rw [ha] at h
      rcases hb : idLookup m b with _ | y
      · rw [hb] at h
        exact absurd h (by simp)
      · rw [hb] at h
        have hop : op = NodeOp.add x y := by simpa using h.symm
        rw [hop]
        intro j hj
        rcases (by simpa [declaredInputs] using hj : j = x ∨ j = y) with hx | hy
        · exact ⟨a, hx ▸ ha⟩
        · exact ⟨b, hy ▸ hb⟩
  | multiply a b =>
    simp only [resolveNode] at h
    rcases ha : idLookup m a with _ | x
    · rw [ha] at h
      exact absurd h (by simp)
    · rw [ha] at h
      rcases hb : idLookup m b with _ | y
      · rw [hb] at h
        exact absurd h (by simp)
      · rw [hb] at h
        have hop : op = NodeOp.multiply x y := by simpa using h.symm
        rw [hop]
        intro j hj
        rcases (by simpa [declaredInputs] using hj : j = x ∨ j = y) with hx | hy
        · exact ⟨a, hx ▸ ha⟩
        · exact ⟨b, hy ▸ hb⟩
  | comparison a b op2 =>
    simp only [resolveNode] at h
    rcases ha : idLookup m a with _ | x
    · rw [ha] at h
      exact absurd h (by simp)
    · rw [ha] at h
      rcases hb : idLookup m b with _ | y
      · rw [hb] at h
        exact absurd h (by simp)
      · rw [hb] at h
        have hop : op = NodeOp.comparison x y op2 := by simpa using h.symm
        rw [hop]
        intro j hj
        rcases (by simpa [declaredInputs] using hj : j = x ∨ j = y) with hx | hy
        · exact ⟨a, hx ▸ ha⟩
        · exact ⟨b, hy ▸ hb⟩
  | other ty =>
    exact absurd h (by simp [resolveNode])

theorem resolveNodes_length (m : List (String × Nat)) (l : List YNode)
    (ops : List NodeOp) (h : resolveNodes m l = Except.ok ops) :
    ops.length = l.length := by
  induction l generalizing ops with
  | nil =>
    have : ops = [] := by simpa [resolveNodes] using h.symm
    rw [this]
    rfl
  | cons nd rest ih =>
    simp only [resolveNodes] at h
    rcases h1 : resolveNode m nd.spec with e | op
    · rw [h1] at h
      exact absurd h (by simp)
    · rw [h1] at h
      rcases h2 : resolveNodes m rest with e | ops2
      · rw [h2] at h
        exact absurd h (by simp)
      · rw [h2] at h
        have heq : op :: ops2 = ops := by simpa using h
        rw [← heq]
        simp [ih ops2 h2]

theorem resolveNodes_refs (m : List (String × Nat)) (l : List YNode)
    (ops : List NodeOp) (h : resolveNodes m l = Except.ok ops) :
    ∀ op ∈ ops, ∀ j ∈ declaredInputs op, ∃ key, idLookup m key = some j := by
  induction l generalizing ops with
  | nil =>
    have : ops = [] := by simpa [resolveNodes] using h.symm
    rw [this]
    simp
  | cons nd rest ih =>
    simp only [resolveNodes] at h
    rcases h1 : resolveNode m nd.spec with e | op
    · rw [h1] at h
      exact absurd h (by simp)
    · rw [h1] at h
      rcases h2 : resolveNodes m rest with e | ops2
      · rw [h2] at h
        exact absurd h (by simp)
      · rw [h2] at h
        have heq : op :: ops2 = ops := by simpa using h
        rw [← heq]
        intro op2 hop2
        rcases List.mem_cons.1 hop2 with hh | ht
        · rw [hh]
          exact resolveNode_refs m nd.spec op h1
        · exact ih ops2 h2 op2 ht

theorem resolveOutputs_refs (m : List (String × Nat)) (l : List String)
    (os : List Nat) (h : resolveOutputs m l = Except.ok os) :
    ∀ o ∈ os, ∃ key, idLookup m key = some o := by
  induction l generalizing os with
  | nil =>
    have : os = [] := by simpa [resolveOutputs] using h.symm
    rw [this]
    simp
  | cons id rest ih =>
    simp only [resolveOutputs] at h
    rcases h1 : idLookup m id with _ | i
    · rw [h1] at h
      exact absurd h (by simp)
    · rw [h1] at h
      rcases h2 : resolveOutputs m rest with e | os2
      · rw [h2] at h
        exact absurd h (by simp)
      · rw [h2] at h
        have heq : i :: os2 = os := by simpa using h
        rw [← heq]
        intro o ho
        rcases List.mem_cons.1 ho with hh | ht
        · exact ⟨id, hh ▸ h1⟩
        · exact ih os2 h2 o ht

theorem fromYaml_inv (d : DagYaml) (e : Engine) (h : fromYaml d = Except.ok e) :
    ∃ ops, resolveNodes (idMapOf d.nodes 0) d.nodes = Except.ok ops ∧
      e.nodes = ops ∧
      (∀ t, e.triggerNode = some t →
        ∃ tid, idLookup (idMapOf d.nodes 0) tid = some t) ∧
      (∀ o ∈ e.outputNodes, ∃ key, idLookup (idMapOf d.nodes 0) key = some o) := by
  simp only [fromYaml] at h
  rcases h1 : resolveNodes (idMapOf d.nodes 0) d.nodes with er | ops
  · rw [h1] at h
    dsimp only at h
    exact absurd h (by simp)
  · rw [h1] at h
    dsimp only at h
    refine ⟨ops, rfl, ?_⟩
    rcases htr : d.trigger with _ | tid
    · rw [htr] at h
      dsimp only at h
      rcases hout : d.outputs with _ | oids
      · rw [hout] at h
        dsimp only at h
        have he : e = ⟨ops, none, []⟩ := by simpa using h.symm
        rw [he]
        exact ⟨rfl, by simp, by simp⟩
      · rw [hout] at h
        dsimp only at h
        rcases h2 : resolveOutputs (idMapOf d.nodes 0) oids with er | os
        · rw [h2] at h
          dsimp only at h
          exact absurd h (by simp)
        · rw [h2] at h
          dsimp only at h
          have he : e = ⟨ops, none, os⟩ := by simpa using h.symm
          rw [he]
          refine ⟨rfl, by simp, ?_⟩
          exact resolveOutputs_refs _ oids os h2
    · rw [htr] at h
      dsimp only at h
      rcases h3 : idLookup (idMapOf d.nodes 0) tid with _ | t
      · rw [h3] at h
        dsimp only at h
        exact absurd h (by simp)
      · rw [h3] at h
        dsimp only at h
        rcases hout : d.outputs with _ | oids
        · rw [hout] at h
          dsimp only at h
          have he : e = ⟨ops, some t, []⟩ := by simpa using h.symm
          rw [he]
          refine ⟨rfl, ?_, by simp⟩
          intro t2 ht2
          have ht : t = t2 := by simpa using ht2
          exact ⟨tid, ht ▸ h3⟩
        · rw [hout] at h
          dsimp only at h
          rcases h2 : resolveOutputs (idMapOf d.nodes 0) oids with er | os
          · rw [h2] at h
            dsimp only at h
            exact absurd h (by simp)
          · rw [h2] at h
            dsimp only at h
            have he : e = ⟨ops, some t, os⟩ := by simpa using h.symm
            rw [he]
            refine ⟨rfl, ?_, ?_⟩
            · intro t2 ht2
              have ht : t = t2 := by simpa using ht2
              exact ⟨tid, ht ▸ h3⟩
            · exact resolveOutputs_refs _ oids os h2

/-! ### Claim theorems: builder, arena, divide -/

/-- Claim C5 (corrected): for an engine accepted by `from_yaml`, every
node-index reference (declared inputs, trigger, outputs) is within the
arena, and `evaluate_step` never fails PROVIDED every `Input` node's
`input_index` is within the presented row — the original claim's "every
row stream" fails because a row shorter than an `input_index` panics (see
the counterexample). -/
theorem step_total_with_bounded_rows (d : DagYaml) (e : Engine)
    (hok : fromYaml d = Except.ok e) :
    Engine.refsInBounds e ∧
    ∀ (s : EngState) (row : List F),
      (∀ p ∈ collectInputs e.nodes 0, p.2 < row.length) →
      (evaluateStep e s row).isSome = true := by
  obtain ⟨ops, hres, hnodes, htr, hout⟩ := fromYaml_inv d e hok
  have hlen : e.nodes.length = d.nodes.length := by
    rw [hnodes]
    exact resolveNodes_length _ _ _ hres
  constructor
  · refine ⟨?_, ?_, ?_⟩
    · intro i nd hi j hj
      have hmem : nd ∈ ops := by
        rw [← hnodes]
        exact List.get?_mem hi
      obtain ⟨key, hkey⟩ := resolveNodes_refs _ _ _ hres nd hmem j hj
      rw [hlen]
      exact idLookup_lt d.nodes key j hkey
    · intro t ht
      obtain ⟨tid, htid⟩ := htr t ht
      rw [hlen]
      exact idLookup_lt d.nodes tid t htid
    · intro o ho
      obtain ⟨key, hkey⟩ := hout o ho
      rw [hlen]
      exact idLookup_lt d.nodes key o hkey
  · intro s row hrow
    by_cases hfr : s.firstRun
    · rw [evaluateStep, if_pos (by simp [hfr])]
      obtain ⟨v1, hv1⟩ := Option.isSome_iff_exists.1
        (setInputsFirst_isSome row _ s.values hrow)
      rw [hv1]
      rfl
    · rw [evaluateStep, if_neg (by simp [hfr])]
      obtain ⟨vc1, hvc1⟩ := Option.isSome_iff_exists.1
        (updInputs_isSome row s.prevValues _
          (s.prevValues, List.replicate e.nodes.length false) hrow)
      rw [hvc1]
      rfl

theorem step_total_with_bounded_rows_witness :
    (fromYaml c5yaml = Except.ok c5eng) ∧
    (∀ p ∈ collectInputs c5eng.nodes 0, p.2 < ([F.num 3] : List F).length) ∧
    (evaluateStep c5eng (initState c5eng) [F.num 3]).isSome = true := by
  refine ⟨rfl, by decide, ?_⟩
  exact (step_total_with_bounded_rows c5yaml c5eng rfl).2 (initState c5eng)
    [F.num 3] (by decide)

/-- Claim C5 counterexample: `from_yaml` accepts a graph with an `Input`
node bound to row position `0`, yet `evaluate_step` on the empty row
panics (modelled as `none`) — step is not total over every row stream. -/
theorem step_fails_on_short_row :
    fromYaml c5yaml = Except.ok c5eng ∧
    evaluateStep c5eng (initState c5eng) [] = none := ⟨rfl, rfl⟩

/-- Claim C6 (code_bug): `from_yaml` carries a
`// TODO: Verify topological order` and performs no cycle or
forward-reference check: a self-referential `Add` node (a one-node cycle)
and a forward reference are both accepted, where the claim — and the
spec's Builder contract — require a `CycleOrForwardReference` error. -/
theorem fromYaml_accepts_cycle :
    fromYaml c6yaml = Except.ok (⟨[NodeOp.add 0 0], none, []⟩ : Engine) ∧
    fromYaml c6fwdYaml =
      Except.ok (⟨[NodeOp.add 1 1, NodeOp.constant (F.num 1)], none, []⟩ : Engine) :=
  ⟨rfl, rfl⟩

/-- Claim C7 (corrected): `Arena::insert` aliases two specs only when they
carry the SAME original identity — a previously seen id returns the
existing `NodeId` and adds no node, while a spec with a fresh id is always
appended, even if structurally identical to an existing node.  The claim's
structural dedup fails (see the counterexample). -/
theorem insert_dedupes_by_original_id (T : Type) (a : ArenaS T) (node : T)
    (id : String) :
    (∀ eid, a.sharedRefs.lookup id = some eid → a.insert node (some id) = (a, eid)) ∧
    (a.sharedRefs.lookup id = none →
      (a.insert node (some id)).1.nodes = a.nodes ++ [node] ∧
      (a.insert node (some id)).2 = a.nodes.length) := by
  constructor
  · intro eid h
    simp [ArenaS.insert, h]
  · intro h
    simp [ArenaS.insert, h]

theorem insert_dedupes_by_original_id_witness :
    (c7arena.sharedRefs.lookup "x" = some 0) ∧
    c7arena.insert (SNode.addN [0, 1]) (some "x") = (c7arena, 0) := by
  refine ⟨rfl, ?_⟩
  exact (insert_dedupes_by_original_id SNode c7arena (SNode.addN [0, 1]) "x").1 0 rfl

/-- Claim C7 counterexample: two structurally identical `Add` specs (same
kind, same children `[0, 1]`) inserted under the distinct original ids
`"x"` and `"y"` produce TWO arena nodes with distinct `NodeId`s — not the
single deduplicated node the claim requires. -/
theorem structurally_equal_specs_not_merged :
    c7step2.1.nodes = [SNode.addN [0, 1], SNode.addN [0, 1]] ∧
    c7step1.2 = 0 ∧ c7step2.2 = 1 := by
  refine ⟨?_, rfl, rfl⟩
  rfl

/-- Claim C8 (confirmed): `DivNode::eval` returns NaN exactly when the
divisor value compares equal to `0.0` and the quotient otherwise; the
divide-by-zero scenario emits NaN for row `(a, 1), (b, 0)` and then `1.0`
— reported as changed by a fresh emission — for row `(a, 1), (b, 1)`. -/
theorem divide_by_zero_yields_nan :
    (∀ (values : List F) (left right : Nat),
      divNodeEval left right values =
        if F.beq (values.getD right (F.num 0)) (F.num 0) then F.nan
        else F.fdiv (values.getD left (F.num 0)) (values.getD right (F.num 0))) ∧
    samplerRun c8nodes 2 [2] c8rows =
      [[("trigger", F.nan), ("output0", F.nan)],
       [("trigger", F.num 1), ("output0", F.num 1)]] := by
  refine ⟨fun values left right => rfl, ?_⟩
  have hout : "output" ++ toString 0 = "output0" := by decide
  have h1 : ("a" == "a") = true := by decide
  have h2 : ("b" == "b") = true := by decide
  have h3 : ("a" == "b") = false := by decide
  have h4 : ("b" == "a") = false := by decide
  norm_num [samplerRun, samplerRunAux, evalAllNodes, sEvalLoop, SNode.evalArena,
    divNodeEval, mkRecord, mkOutputs, F.fne, F.beq, F.fdiv, F.add, F.mul,
    List.lookup, List.getD, List.set, List.replicate, c8nodes, c8rows,
    hout, h1, h2, h3, h4]

/-! ### Constant stability -/

theorem stepConst_first (e : Engine) (s : EngState) (row : List F)
    (s' : EngState) (em : Option (List F)) (c : Nat) (v : F)
    (hc : e.nodes.get? c = some (NodeOp.constant v))
    (hfr : s.firstRun = true)
    (hlen : s.values.length = e.nodes.length)
    (h : evaluateStep e s row = some (s', em)) :
    s'.firstRun = false ∧ s'.prevValues.length = e.nodes.length ∧
    s'.prevValues.getD c (F.num 0) = v ∧ s'.values.getD c (F.num 0) = v := by
  obtain ⟨v1, hv1, hval, hprev, hch, hfr'⟩ := evaluateStep_first_inv e s row s' em hfr h
  have hbound : c < e.nodes.length := by
    by_contra hcon
    rw [List.get?_eq_none.2 (Nat.le_of_not_lt hcon)] at hc
    exact absurd hc (by simp)
  have hlen1 : v1.length = e.nodes.length :=
    (setInputsFirst_lengths row _ s.values v1 hv1).trans hlen
  have hcv : (evalLoopFirst e.nodes 0 v1).getD c (F.num 0) = v := by
    have := firstLoop_const e.nodes 0 v1 c v hc (by omega)
    simpa using this
  refine ⟨hfr', ?_, ?_, ?_⟩
  · rw [hprev, firstLoop_length, hlen1]
  · rw [hprev]
    exact hcv
  · rw [hval]
    exact hcv

theorem stepConst_inc (e : Engine) (s : EngState) (row : List F)
    (s' : EngState) (em : Option (List F)) (c : Nat) (v : F)
    (hc : e.nodes.get? c = some (NodeOp.constant v))
    (hfr : s.firstRun = false)
    (hlen : s.prevValues.length = e.nodes.length)
    (hpv : s.prevValues.getD c (F.num 0) = v)
    (h : evaluateStep e s row = some (s', em)) :
    s'.firstRun = false ∧ s'.prevValues.length = e.nodes.length ∧
    s'.prevValues.getD c (F.num 0) = v ∧ s'.values.getD c (F.num 0) = v ∧
    s'.changed.getD c false = false := by
  obtain ⟨vc1, hvc, hv, hp, hchg, hfr'⟩ := evaluateStep_inc_inv e s row s' em hfr h
  have hnotin : ∀ p ∈ collectInputs e.nodes 0, p.1 ≠ c :=
    not_input_id e c (NodeOp.constant v) hc (fun x hx => NodeOp.noConfusion hx)
  have hupd := updInputs_preserve row s.prevValues _ _ _ hvc c hnotin
  have hlens := updInputs_lengths row s.prevValues _ _ _ hvc
  have hq := loopInc_quiet s.prevValues e.nodes 0 vc1 c (NodeOp.constant v)
    (by simpa using hc)
    (by intro j hj; exact absurd hj (by simp [declaredInputs]))
  rw [Nat.zero_add] at hq
  have hvc1 : vc1.1.getD c (F.num 0) = v := by
    rw [hupd.1]
    exact hpv
  refine ⟨hfr', ?_, ?_, ?_, ?_⟩
  · rw [hp, loopInc_fst_length, hlens.1]
    exact hlen
  · rw [hp]
    exact hq.1.trans hvc1
  · rw [hv]
    exact hq.1.trans hvc1
  · rw [hchg]
    refine hq.2.trans (hupd.2.trans ?_)
    exact getD_replicate e.nodes.length c false

theorem traceConst_aux (e : Engine) (c : Nat) (v : F)
    (hc : e.nodes.get? c = some (NodeOp.constant v)) :
    ∀ (rows : List (List F)) (s : EngState),
      s.firstRun = false → s.prevValues.length = e.nodes.length →
      s.prevValues.getD c (F.num 0) = v →
      ∀ tr, runTrace e s rows = some tr →
        ∀ p ∈ tr, p.1.values.getD c (F.num 0) = v ∧
          p.1.prevValues.getD c (F.num 0) = v ∧
          p.1.changed.getD c false = false := by
  intro rows
  induction rows with
  | nil =>
    intro s _ _ _ tr htr p hp
    have : tr = [] := by simpa [runTrace] using htr.symm
    rw [this] at hp
    exact absurd hp (by simp)
  | cons row rest ih =>
    intro s hfr hlen hpv tr htr p hp
    simp only [runTrace] at htr
    rcases hstep : evaluateStep e s row with _ | sem
    · rw [hstep] at htr
      exact absurd htr (by simp)
    · rw [hstep] at htr
      obtain ⟨s1, em⟩ := sem
      dsimp only at htr
      rcases htr2 : runTrace e s1 rest with _ | tr'
      · rw [htr2] at htr
        exact absurd htr (by simp)
      · rw [htr2] at htr
        have heq : (s1, em) :: tr' = tr := by simpa using htr
        rw [← heq] at hp
        have hinv := stepConst_inc e s row s1 em c v hc hfr hlen hpv hstep
        rcases List.mem_cons.1 hp with hh | ht
        · rw [hh]
          exact ⟨hinv.2.2.2.1, hinv.2.2.1, hinv.2.2.2.2⟩
        · exact ih s1 hinv.1 hinv.2.1 hinv.2.2.1 tr' htr2 p ht

/-- Claim C9 (confirmed): for a `Constant` node `c`, every state of a run
from the initial state carries `value[c] = prev[c] = v` — the constant's
value never changes once the first step computes it — and from the second
step on, `changed[c]` is always false. -/
theorem constant_stability (e : Engine) (rows : List (List F)) (c : Nat) (v : F)
    (hc : e.nodes.get? c = some (NodeOp.constant v)) :
    ∀ k p, (runTrace e (initState e) rows).bind (fun tr => tr.get? k) = some p →
      p.1.values.getD c (F.num 0) = v ∧
      p.1.prevValues.getD c (F.num 0) = v ∧
      (1 ≤ k → p.1.changed.getD c false = false) := by
  intro k p hp
  cases rows with
  | nil =>
    rw [runTrace] at hp
    exact absurd hp (by simp)
  | cons row rest =>
    simp only [runTrace] at hp
    rcases hstep : evaluateStep e (initState e) row with _ | sem
    · rw [hstep] at hp
      exact absurd hp (by simp)
    · rw [hstep] at hp
      obtain ⟨s1, em⟩ := sem
      dsimp only at hp
      rcases htr2 : runTrace e s1 rest with _ | tr'
      · rw [htr2] at hp
        exact absurd hp (by simp)
      · rw [htr2] at hp
        dsimp only at hp
        have hfirst := stepConst_first e (initState e) row s1 em c v hc rfl
          (by simp [initState]) hstep
        cases k with
        | zero =>
          have hpe : p = (s1, em) := by simpa using hp.symm
          rw [hpe]
          exact ⟨hfirst.2.2.2, hfirst.2.2.1, fun hk => absurd hk (by omega)⟩
        | succ k' =>
          have hp' : tr'.get? k' = some p := by simpa using hp
          have hmem : p ∈ tr' := List.get?_mem hp'
          have := traceConst_aux e c v hc rest s1 hfirst.1 hfirst.2.1
            hfirst.2.2.1 tr' htr2 p hmem
          exact ⟨this.1, this.2.1, fun _ => this.2.2⟩

theorem constant_stability_witness :
    (c9eng.nodes.get? 0 = some (NodeOp.constant (F.num 7))) ∧
    ((runTrace c9eng (initState c9eng) c9rows).bind (fun tr => tr.get? 1) =
      some (⟨[F.num 7, F.num 2], [F.num 7, F.num 2], [false, true], false⟩,
            (none : Option (List F)))) ∧
    ((⟨[F.num 7, F.num 2], [F.num 7, F.num 2], [false, true], false⟩ :
        EngState).values.getD 0 (F.num 0) = F.num 7 ∧
     (⟨[F.num 7, F.num 2], [F.num 7, F.num 2], [false, true], false⟩ :
        EngState).prevValues.getD 0 (F.num 0) = F.num 7 ∧
     (1 ≤ 1 → (⟨[F.num 7, F.num 2], [F.num 7, F.num 2], [false, true], false⟩ :
        EngState).changed.getD 0 false = false)) := by
  have htr : (runTrace c9eng (initState c9eng) c9rows).bind (fun tr => tr.get? 1) =
      some (⟨[F.num 7, F.num 2], [F.num 7, F.num 2], [false, true], false⟩,
            (none : Option (List F))) := by
    norm_num [runTrace, evaluateStep, initState, collectInputs, updInputs,
      setInputsFirst, evalLoopFirst, evalLoopInc, incTurn, computeVal,
      checkInputsChanged, finishStep, F.bigChange, F.fgt, F.flt, F.fabs, F.sub,
      F.add, F.mul, F.epsF, F.beq, List.getD, List.set, List.replicate,
      c9eng, c9rows]
  exact ⟨rfl, htr, constant_stability c9eng c9rows 0 (F.num 7) rfl 1 _ htr⟩

/-! ### The Sampler emission protocol -/

theorem mkRecord_trigger (t : F) (outputs : List Nat) (values : List F) :
    (mkRecord t outputs values).lookup "trigger" = some t := by
  simp [mkRecord, List.lookup]

theorem emittedTriggers_cons (t : F) (outputs : List Nat) (values : List F)
    (recs : List (List (String × F))) :
    emittedTriggers (mkRecord t outputs values :: recs) = t :: emittedTriggers recs := by
  simp [emittedTriggers, List.filterMap_cons, mkRecord_trigger]

theorem samplerAux_chain (nodes : List SNode) (root : Nat) (outputs : List Nat) :
    ∀ (rows : List SRow) (p : F),
      List.Chain' (fun x y => F.beq x y = false)
        (p :: emittedTriggers (samplerRunAux nodes root outputs (some p) rows)) := by
  intro rows
  induction rows with
  | nil =>
    intro p
    simp [samplerRunAux, emittedTriggers]
  | cons row rest ih =>
    intro p
    simp only [samplerRunAux]
    by_cases hne : F.fne p ((evalAllNodes nodes row).getD root (F.num 0)) = true
    · rw [if_pos hne]
      rw [emittedTriggers_cons]
      refine List.chain'_cons.2 ⟨?_, ih _⟩
      have := hne
      rw [F.fne] at this
      simpa using this
    · rw [if_neg hne]
      exact ih p

/-- Claim C1 (corrected, restricted to the `Sampler` evaluator of `lib.rs`):
a step emits iff `prev_trigger` is absent or differs from the trigger value
under `!=`, with `prev_trigger` updated to the trigger value on emission;
consequently the emitted trigger sequence has no two consecutive values
equal under f64 `==`, and the first step always emits.  The `Engine`
evaluator violates this protocol: it gates on the trigger's epsilon-based
changed flag and can emit two consecutive equal trigger values (see the
counterexample). -/
theorem sampler_emission_protocol (nodes : List SNode) (root : Nat)
    (outputs : List Nat) :
    (∀ rows : List SRow,
      List.Chain' (fun x y => F.beq x y = false)
        (emittedTriggers (samplerRun nodes root outputs rows))) ∧
    (∀ (row : SRow) (rest : List SRow),
      samplerRun nodes root outputs (row :: rest) =
        mkRecord ((evalAllNodes nodes row).getD root (F.num 0)) outputs
            (evalAllNodes nodes row) ::
          samplerRunAux nodes root outputs
            (some ((evalAllNodes nodes row).getD root (F.num 0))) rest) ∧
    (∀ (p : F) (row : SRow) (rest : List SRow),
      samplerRunAux nodes root outputs (some p) (row :: rest) =
        if F.fne p ((evalAllNodes nodes row).getD root (F.num 0)) then
          mkRecord ((evalAllNodes nodes row).getD root (F.num 0)) outputs
              (evalAllNodes nodes row) ::
            samplerRunAux nodes root outputs
              (some ((evalAllNodes nodes row).getD root (F.num 0))) rest
        else samplerRunAux nodes root outputs (some p) rest) := by
  refine ⟨?_, fun row rest => rfl, fun p row rest => rfl⟩
  intro rows
  cases rows with
  | nil => simp [samplerRun, samplerRunAux, emittedTriggers]
  | cons row rest =>
    rw [samplerRun]
    simp only [samplerRunAux]
    rw [emittedTriggers_cons]
    exact samplerAux_chain nodes root outputs rest _

end Sdag
